import Mathlib

/-
Verification development for the voxel-wise statistical comparison engine of
the flybrain_image_toolkit repository (registration_based_image_processing/
voxel_t-stats.py).

Modelling conventions:
* float64 samples are idealised as exact rationals; IEEE special values
  (infinities, NaN) that the numpy/scipy pipeline produces through division
  by zero are modelled explicitly by the type RE below.
* a 3D volume of fixed shape (d0, d1, d2) is a function from index triples
  to values; the shape-generic accumulator is additionally modelled on a
  dynamically shaped array type NArr, including numpy broadcasting, because
  its error behaviour on shape mismatch depends on broadcasting.
* file paths are identified with the arrays read from them (the readers
  np.load / nrrd.read are pure).
-/

/-- Extended value: an exact rational, one of the two infinities, or NaN.
This models the values a float64 cell can take in the t-test pipeline when
divisions by zero are suppressed (np.errstate(divide='ignore',
invalid='ignore')). -/
inductive RE : Type where
  | fin : ℚ → RE
  | pinf : RE
  | ninf : RE
  | nan : RE
deriving DecidableEq

/-- Negation, IEEE semantics. -/
def RE.neg : RE → RE
  | .fin q => .fin (-q)
  | .pinf => .ninf
  | .ninf => .pinf
  | .nan => .nan

/-- Absolute value, IEEE semantics (np.abs). -/
def RE.abs : RE → RE
  | .fin q => .fin |q|
  | .pinf => .pinf
  | .ninf => .pinf
  | .nan => .nan

/-- Doubling (multiplication by the finite positive constant 2). -/
def RE.double : RE → RE
  | .fin q => .fin (2 * q)
  | .pinf => .pinf
  | .ninf => .ninf
  | .nan => .nan

/-- NaN test (np.isnan). -/
def RE.isNan : RE → Bool
  | .nan => true
  | _ => false

/-- Division of two exact rationals with IEEE zero-divisor semantics:
x/0 is +inf, -inf or NaN according to the sign of x (the dividends produced
by the pipeline are finite, and sqrt yields +0.0, so no signed-zero divisor
arises). -/
def RE.divQ (a b : ℚ) : RE :=
  if b = 0 then
    if a = 0 then .nan else if 0 < a then .pinf else .ninf
  else .fin (a / b)

/-- Division of an extended value by a nonzero rational (used for
p_sorted / ecdffactor in the FDR step, where ecdffactor is positive). -/
def RE.divByQ : RE → ℚ → RE
  | .fin q, e => .fin (q / e)
  | .pinf, e => if 0 < e then .pinf else if e < 0 then .ninf else .nan
  | .ninf, e => if 0 < e then .ninf else if e < 0 then .pinf else .nan
  | .nan, _ => .nan

/-- IEEE comparison x <= y: any comparison involving NaN is false. -/
def RE.leB : RE → RE → Bool
  | .nan, _ => false
  | _, .nan => false
  | .ninf, _ => true
  | .fin _, .pinf => true
  | .fin a, .fin b => decide (a ≤ b)
  | .fin _, .ninf => false
  | .pinf, .pinf => true
  | .pinf, _ => false

/-- IEEE comparison x < y: any comparison involving NaN is false. -/
def RE.ltB : RE → RE → Bool
  | .nan, _ => false
  | _, .nan => false
  | .ninf, .ninf => false
  | .ninf, _ => true
  | .fin _, .pinf => true
  | .fin a, .fin b => decide (a < b)
  | .fin _, .ninf => false
  | .pinf, _ => false

/-- np.minimum: NaN-propagating minimum. -/
def RE.npMin (a b : RE) : RE :=
  if a.isNan || b.isNan then .nan else if RE.leB a b then a else b

/-- Total sort key order used to model np.argsort on float64 values:
-inf < finite (by value) < +inf < NaN (numpy sorts NaNs to the end). -/
def RE.keyLe : RE → RE → Bool
  | .ninf, _ => true
  | .fin _, .ninf => false
  | .fin a, .fin b => decide (a ≤ b)
  | .fin _, _ => true
  | .pinf, .ninf => false
  | .pinf, .fin _ => false
  | .pinf, _ => true
  | .nan, .nan => true
  | .nan, _ => false

/-! ## Streaming moment accumulator (Welford), fixed-shape model

calculate_online_stats_3d of voxel_t-stats.py, specialised to inputs that
all share one shape: a volume is a total function from a voxel index type.
The loop body is, for the k-th array x (1-indexed):
  n += 1; delta = x - mean; mean += delta / n; delta2 = x - mean;
  S += delta * delta2
and all array operations are element-wise. -/

/-- One iteration of the Welford loop of calculate_online_stats_3d,
element-wise on same-shaped volumes. State: (mean_arr, S_arr, n). -/
def welfordUpd {ι : Type} (st : (ι → ℚ) × (ι → ℚ) × ℕ) (x : ι → ℚ) :
    (ι → ℚ) × (ι → ℚ) × ℕ :=
  let n : ℕ := st.2.2 + 1
  let mean := st.1
  let S := st.2.1
  let delta : ι → ℚ := fun v => x v - mean v
  let mean' : ι → ℚ := fun v => mean v + delta v / (n : ℚ)
  let delta2 : ι → ℚ := fun v => x v - mean' v
  (mean', fun v => S v + delta v * delta2 v, n)

/-- calculate_online_stats_3d on a list of same-shaped arrays (paths are
identified with the arrays they decode to).  An empty path sequence returns
(None, None, 0); otherwise mean_arr and S_arr start as zero volumes, every
array is folded in by welfordUpd, and the variance is S/(n-1) for n >= 2
and an all-zero volume for n < 2. -/
def calculate_online_stats_3d {ι : Type} (array_paths : List (ι → ℚ)) :
    Option (ι → ℚ) × Option (ι → ℚ) × ℕ :=
  match array_paths with
  | [] => (none, none, 0)
  | _ :: _ =>
    let st := array_paths.foldl welfordUpd (fun _ => 0, fun _ => 0, 0)
    let n := st.2.2
    let variance_arr : ι → ℚ :=
      if n < 2 then fun _ => 0 else fun v => st.2.1 v / ((n : ℚ) - 1)
    (some st.1, some variance_arr, n)

/-- Naive two-pass mean: load the whole stack and average element-wise. -/
def naive_mean {ι : Type} (stack : List (ι → ℚ)) : ι → ℚ :=
  fun v => ((stack.map (fun x => x v)).sum) / (stack.length : ℚ)

/-- Naive two-pass N-1 sample variance computed over the whole stack. -/
def naive_variance {ι : Type} (stack : List (ι → ℚ)) : ι → ℚ :=
  fun v =>
    ((stack.map (fun x => (x v - naive_mean stack v) ^ 2)).sum) /
      ((stack.length : ℚ) - 1)

/-! ## Fixed-shape 3D volumes and C-order linearisation -/

/-- A 3D volume of shape (d0, d1, d2) with cells of type alpha. -/
def Vol3 (d0 d1 d2 : ℕ) (α : Type) : Type :=
  Fin d0 × Fin d1 × Fin d2 → α

/-- ndarray.flatten / reshape linearisation in C order: voxel (i, j, k)
goes to flat position (i*d1 + j)*d2 + k. -/
def flatten3 {d0 d1 d2 : ℕ} {α : Type} (V : Vol3 d0 d1 d2 α) : List α :=
  List.ofFn fun x : Fin (d0 * (d1 * d2)) =>
    V (⟨x.val / (d1 * d2), by
          rcases Nat.eq_zero_or_pos (d1 * d2) with h0 | h0
          · exact absurd x.isLt (by simp [h0])
          · exact (Nat.div_lt_iff_lt_mul h0).2 x.isLt⟩,
       ⟨x.val / d2 % d1, by
          rcases Nat.eq_zero_or_pos d1 with h0 | h0
          · exact absurd x.isLt (by simp [h0])
          · exact Nat.mod_lt _ h0⟩,
       ⟨x.val % d2, by
          rcases Nat.eq_zero_or_pos d2 with h0 | h0
          · exact absurd x.isLt (by simp [h0])
          · exact Nat.mod_lt _ h0⟩)

/-- reshape of a flat list back to the 3D grid, C order (inverse of
flatten3 on lists of the right length; z is a never-used default). -/
def unflatten3 {d0 d1 d2 : ℕ} {α : Type} (z : α) (l : List α) :
    Vol3 d0 d1 d2 α :=
  fun v => l.getD ((v.1.val * d1 + v.2.1.val) * d2 + v.2.2.val) z

/-! ## Welch t-test from summary statistics

Model of scipy.stats.ttest_ind_from_stats with equal_var=False.  The Python
code passes std = sqrt(var) and scipy squares it again (std**2), which in
exact arithmetic recovers var.  scipy computes
  vn1 = var1/n1; vn2 = var2/n2
  df  = (vn1+vn2)**2 / (vn1**2/(n1-1) + vn2**2/(n2-1))   (NaN when both
        variances are zero), then replaces NaN df by 1
  denom = sqrt(vn1+vn2)
  t = (mean1 - mean2) / denom
  p = 2 * stdtr(df, -|t|)
The square root (whose exact value is irrational in general) and the
Student-t CDF stdtr (transcendental) are passed in as parameters sq and F;
the df argument fed to F is always finite by construction. -/

/-- scipy.stats.ttest_ind_from_stats, equal_var=False, two-sided.
Only called with nobs1, nobs2 >= 2, so the rational divisions by
(nobs - 1) in the df formula have nonzero divisors. -/
def ttest_ind_from_stats (F : RE → RE → RE) (sq : ℚ → ℚ)
    (mean1 : ℚ) (var1 : ℚ) (nobs1 : ℕ) (mean2 : ℚ) (var2 : ℚ) (nobs2 : ℕ) :
    RE × RE :=
  let vn1 : ℚ := var1 / (nobs1 : ℚ)
  let vn2 : ℚ := var2 / (nobs2 : ℚ)
  let dfRaw : RE := RE.divQ ((vn1 + vn2) ^ 2)
      (vn1 ^ 2 / ((nobs1 : ℚ) - 1) + vn2 ^ 2 / ((nobs2 : ℚ) - 1))
  let df : RE := if dfRaw.isNan then RE.fin 1 else dfRaw
  let denom : ℚ := sq (vn1 + vn2)
  let t : RE := RE.divQ (mean1 - mean2) denom
  let prob : RE := RE.double (F df (RE.neg (RE.abs t)))
  (t, prob)

/-- Concrete instance of the Student-t CDF parameter F: exact at the
special arguments the pipeline depends on (NaN propagation, value 0 at
-inf, 1 at +inf, 1/2 at 0); at other finite arguments the true CDF is
transcendental and the placeholder value lying strictly between 0 and 1 is
never relied on by any theorem. -/
def stdtrModel : RE → RE → RE := fun df x =>
  match df, x with
  | .nan, _ => .nan
  | _, .nan => .nan
  | _, .ninf => .fin 0
  | _, .pinf => .fin 1
  | _, .fin q =>
    if q < 0 then .fin (1 / 4) else if q = 0 then .fin (1 / 2) else .fin (3 / 4)

/-! ## Benjamini-Hochberg FDR correction

Model of statsmodels.stats.multitest.fdrcorrection(pvals, alpha,
method='indep', is_sorted=False):
  pvals_sortind = np.argsort(pvals); pvals_sorted = np.take(pvals, sortind)
  ecdffactor = arange(1, m+1) / m
  reject = pvals_sorted <= ecdffactor * alpha
  if reject.any(): rejectmax = max(nonzero(reject)); reject[:rejectmax] = True
  pvals_corrected_raw = pvals_sorted / ecdffactor
  pvals_corrected = np.minimum.accumulate(raw[::-1])[::-1]
  pvals_corrected[pvals_corrected > 1] = 1
  scatter both results back through sortind.
np.argsort chooses an arbitrary order among tied values; the model fixes
the stable one by breaking ties with the original index, which is one of
the permutations numpy may choose. -/

/-- Sort key on (original index, p-value) pairs: by value, ties broken by
original index (a total, antisymmetric, transitive order). -/
def fdrPairLe (a b : ℕ × RE) : Bool :=
  if RE.keyLe a.2 b.2 then
    if RE.keyLe b.2 a.2 then decide (a.1 ≤ b.1) else true
  else false

/-- argsort step: the (index, value) pairs in ascending order of value. -/
def fdrSortedPairs (pvals : List RE) : List (ℕ × RE) :=
  pvals.enum.mergeSort fdrPairLe

/-- pvals_sortind of statsmodels. -/
def fdrSortind (pvals : List RE) : List ℕ :=
  (fdrSortedPairs pvals).map Prod.fst

/-- pvals_sorted of statsmodels. -/
def fdrSorted (pvals : List RE) : List RE :=
  (fdrSortedPairs pvals).map Prod.snd

/-- reject = pvals_sorted <= ecdffactor * alpha, elementwise;
ecdffactor for 0-based rank k is (k+1)/m. -/
def fdrReject0 (pvals : List RE) (alpha : ℚ) : List Bool :=
  (fdrSorted pvals).mapIdx fun k p =>
    RE.leB p (RE.fin (((k + 1 : ℕ) : ℚ) / (pvals.length : ℚ) * alpha))

/-- Index of the last true entry (max(nonzero(reject)) when any). -/
def maxTrueIdx (l : List Bool) : Option ℕ :=
  ((List.range l.length).filter fun k => l.getD k false).max?

/-- The step-up fill reject[:rejectmax] = True of statsmodels. -/
def fdrRejectSorted (pvals : List RE) (alpha : ℚ) : List Bool :=
  match maxTrueIdx (fdrReject0 pvals alpha) with
  | none => fdrReject0 pvals alpha
  | some K => (fdrReject0 pvals alpha).mapIdx fun k b => if k < K then true else b

/-- np.minimum.accumulate(l[::-1])[::-1]: each entry becomes the minimum
of its own suffix. -/
def suffixMins : List RE → List RE
  | [] => []
  | x :: xs =>
    match suffixMins xs with
    | [] => [x]
    | y :: ys => RE.npMin x y :: y :: ys

/-- pvals_corrected_raw = pvals_sorted / ecdffactor. -/
def fdrCorrRaw (pvals : List RE) : List RE :=
  (fdrSorted pvals).mapIdx fun k p =>
    RE.divByQ p (((k + 1 : ℕ) : ℚ) / (pvals.length : ℚ))

/-- Corrected p-values in sorted order before clipping. -/
def fdrCorrSorted (pvals : List RE) : List RE :=
  suffixMins (fdrCorrRaw pvals)

/-- Clipping pvals_corrected[pvals_corrected > 1] = 1. -/
def fdrCorrClipped (pvals : List RE) : List RE :=
  (fdrCorrSorted pvals).map fun x => if RE.ltB (RE.fin 1) x then RE.fin 1 else x

/-- out[sortind[k]] = vals[k]: inverse permutation scatter (z is a default
that is never used when sortind is a permutation of range m). -/
def scatterBack {α : Type} (m : ℕ) (sortind : List ℕ) (vals : List α)
    (z : α) : List α :=
  (List.range m).map fun j => vals.getD (sortind.indexOf j) z

/-- statsmodels fdrcorrection: returns (rejected, pvals_corrected) in the
original order of pvals. -/
def fdrcorrection (pvals : List RE) (alpha : ℚ) : List Bool × List RE :=
  (scatterBack pvals.length (fdrSortind pvals) (fdrRejectSorted pvals alpha) false,
   scatterBack pvals.length (fdrSortind pvals) (fdrCorrClipped pvals) RE.nan)

/-! ## Group comparator -/

/-- Error raised by compare_groups_voxelwise ("Each group must contain at
least two arrays to perform a t-test."). -/
inductive CmpErr : Type where
  | insufficientSamples
deriving DecidableEq

/-- The dictionary returned by compare_groups_voxelwise. -/
structure CmpResult (d0 d1 d2 : ℕ) : Type where
  t_statistics : Vol3 d0 d1 d2 RE
  p_values_uncorrected : Vol3 d0 d1 d2 RE
  p_values_corrected_fdr : Vol3 d0 d1 d2 RE
  significant_mask_fdr : Vol3 d0 d1 d2 Bool
  mean_diff : Vol3 d0 d1 d2 ℚ

/-- compare_groups_voxelwise of voxel_t-stats.py: accumulate each group
with calculate_online_stats_3d, require both counts >= 2, run the Welch
t-test element-wise, replace NaN t by 0 and NaN p by 1, FDR-correct the
flattened p-values, reshape back, and keep mean_diff = mean_B - mean_A. -/
def compare_groups_voxelwise {d0 d1 d2 : ℕ} (F : RE → RE → RE) (sq : ℚ → ℚ)
    (group_a_paths group_b_paths : List (Vol3 d0 d1 d2 ℚ)) (alpha : ℚ) :
    Except CmpErr (CmpResult d0 d1 d2) :=
  let accA := calculate_online_stats_3d group_a_paths
  let accB := calculate_online_stats_3d group_b_paths
  let n_A := accA.2.2
  let n_B := accB.2.2
  if n_A < 2 ∨ n_B < 2 then .error .insufficientSamples
  else
    match accA.1, accA.2.1, accB.1, accB.2.1 with
    | some mean_A, some var_A, some mean_B, some var_B =>
      let tp : Vol3 d0 d1 d2 (RE × RE) := fun v =>
        ttest_ind_from_stats F sq (mean_A v) (var_A v) n_A (mean_B v) (var_B v) n_B
      let t_stats : Vol3 d0 d1 d2 RE := fun v =>
        if (tp v).1.isNan then RE.fin 0 else (tp v).1
      let p_values : Vol3 d0 d1 d2 RE := fun v =>
        if (tp v).2.isNan then RE.fin 1 else (tp v).2
      let corrected := fdrcorrection (flatten3 p_values) alpha
      .ok { t_statistics := t_stats
            p_values_uncorrected := p_values
            p_values_corrected_fdr := unflatten3 RE.nan corrected.2
            significant_mask_fdr := unflatten3 false corrected.1
            mean_diff := fun v => mean_B v - mean_A v }
    | _, _, _, _ =>
      -- unreachable: after the count guard both accumulators return some
      .error .insufficientSamples

/-! ## Dynamically shaped arrays and numpy broadcasting

calculate_online_stats_3d performs no shape check: the element-wise numpy
operations of its loop broadcast their operands.  To settle the claims
about its behaviour on shape-mismatched inputs, the accumulator is also
modelled on arrays carrying their own shape, with numpy's broadcasting
rules: align shapes from the right; two dimensions are compatible when
they are equal or one of them is 1; an in-place operation additionally
requires the broadcast result shape to equal the output operand's shape. -/

/-- A dynamically shaped array: a shape and its cells in C order. -/
structure NArr : Type where
  shape : List ℕ
  data : List ℚ
deriving DecidableEq

/-- np.zeros(shape). -/
def NArr.zerosLike (s : List ℕ) : NArr :=
  ⟨s, List.replicate s.prod 0⟩

/-- Broadcast one pair of dimensions: equal dimensions stay, a dimension
of 1 stretches to the other, anything else is incompatible. -/
def bcastDim (a b : ℕ) : Option ℕ :=
  if a = b then some a else if a = 1 then some b else if b = 1 then some a
  else none

/-- Broadcast two reversed shapes (so that heads are the rightmost,
fastest-varying dimensions); a missing leading axis behaves as absent
(shorter shape is left-padded conceptually). -/
def bcastRev : List ℕ → List ℕ → Option (List ℕ)
  | [], l => some l
  | a :: as_, [] => some (a :: as_)
  | a :: as_, b :: bs =>
    match bcastRev as_ bs, bcastDim a b with
    | some rest, some c => some (c :: rest)
    | _, _ => none

/-- numpy broadcasting of two shapes (None when incompatible). -/
def broadcastShapes (s1 s2 : List ℕ) : Option (List ℕ) :=
  (bcastRev s1.reverse s2.reverse).map List.reverse

/-- All multi-indices of a shape, in C order. -/
def allIdx : List ℕ → List (List ℕ)
  | [] => [[]]
  | d :: rest => (List.range d).flatMap fun i => (allIdx rest).map fun idx => i :: idx

/-- Row-major (C order) flat position of a multi-index. -/
def flatIndex (s idx : List ℕ) : ℕ :=
  (s.zip idx).foldl (fun acc di => acc * di.1 + di.2) 0

/-- Cell of an array at a multi-index (0 outside, never used in bounds). -/
def NArr.get (a : NArr) (idx : List ℕ) : ℚ :=
  a.data.getD (flatIndex a.shape idx) 0

/-- Multi-index of the result mapped down into an operand: drop the extra
leading axes and clamp broadcast (size-1) dimensions to index 0. -/
def opIdx (opShape idx : List ℕ) : List ℕ :=
  List.zipWith (fun d i => if d = 1 then 0 else i) opShape
    (idx.drop (idx.length - opShape.length))

/-- Element-wise binary numpy operation with broadcasting. -/
def NArr.bcastOp (f : ℚ → ℚ → ℚ) (a b : NArr) : Option NArr :=
  match broadcastShapes a.shape b.shape with
  | none => none
  | some s => some ⟨s, (allIdx s).map fun idx =>
      f (a.get (opIdx a.shape idx)) (b.get (opIdx b.shape idx))⟩

/-- Error of a failed numpy broadcast (ValueError: operands could not be
broadcast together / non-broadcastable output operand). -/
inductive AccErr : Type where
  | broadcastMismatch
deriving DecidableEq

/-- In-place a += b: the broadcast result must keep a's shape. -/
def NArr.iadd (a b : NArr) : Except AccErr NArr :=
  match NArr.bcastOp (fun u v => u + v) a b with
  | none => .error .broadcastMismatch
  | some c => if c.shape = a.shape then .ok c else .error .broadcastMismatch

/-- The loop body of calculate_online_stats_3d on shaped arrays:
n += 1; delta = current - mean; mean += delta/n; delta2 = current - mean;
S += delta * delta2. -/
def welfordStepShaped (st : NArr × NArr × ℕ) (current : NArr) :
    Except AccErr (NArr × NArr × ℕ) :=
  let n := st.2.2 + 1
  match NArr.bcastOp (fun u v => u - v) current st.1 with
  | none => .error .broadcastMismatch
  | some delta =>
    match st.1.iadd ⟨delta.shape, delta.data.map fun q => q / (n : ℚ)⟩ with
    | .error e => .error e
    | .ok mean' =>
      match NArr.bcastOp (fun u v => u - v) current mean' with
      | none => .error .broadcastMismatch
      | some delta2 =>
        match NArr.bcastOp (fun u v => u * v) delta delta2 with
        | none => .error .broadcastMismatch
        | some dd =>
          match st.2.1.iadd dd with
          | .error e => .error e
          | .ok S' => .ok (mean', S', n)

/-- calculate_online_stats_3d on shaped arrays: the accumulators start as
zero arrays of the FIRST array's shape, and every array of the list
(including the first again) is folded in; no shape check is performed
beyond what broadcasting itself enforces. -/
def calculate_online_stats_3d_shaped (array_paths : List NArr) :
    Except AccErr (Option NArr × Option NArr × ℕ) :=
  match array_paths with
  | [] => .ok (none, none, 0)
  | first :: _ => do
    let st ← array_paths.foldlM welfordStepShaped
      (NArr.zerosLike first.shape, NArr.zerosLike first.shape, 0)
    let variance_arr : NArr :=
      if st.2.2 < 2 then NArr.zerosLike st.1.shape
      else ⟨st.2.1.shape, st.2.1.data.map fun q => q / ((st.2.2 : ℚ) - 1)⟩
    return (some st.1, some variance_arr, st.2.2)

/-! ## Result projector (signed difference at argmax)

visualize_single_projection of voxel_t-stats.py builds
  diff_mask = zeros_like(mean_diff); diff_mask[significant] = mean_diff[...]
  max_indices = np.argmax(np.abs(diff_mask), axis=axis_idx)
and fills each output pixel with
  diff_mask[idx, i, j] if idx > 0 else 0      (axis 0; axes 1, 2 alike)
where idx is the argmax index of that pixel's ray. -/

/-- np.argmax over a 1D ray: index of the first occurrence of the maximum
(junk 0 on the empty list, on which numpy raises instead). -/
def npArgmax (l : List ℚ) : ℕ :=
  (l.enum.foldl (fun best kv => if best.2 < kv.2 then kv else best)
    (0, l.headD 0)).1

/-- diff_mask: mean_diff masked to zero where not significant. -/
def diff_mask_vol {d0 d1 d2 : ℕ} (significant_mask : Vol3 d0 d1 d2 Bool)
    (mean_diff : Vol3 d0 d1 d2 ℚ) : Vol3 d0 d1 d2 ℚ :=
  fun v => if significant_mask v then mean_diff v else 0

/-- Signed-difference projection along axis 0, as computed by the loop of
visualize_single_projection (note the idx > 0 guard of the source). -/
def diff_proj_axis0 {d0 d1 d2 : ℕ} (dm : Vol3 d0 d1 d2 ℚ) :
    Fin d1 × Fin d2 → ℚ := fun ij =>
  let idx := npArgmax ((List.finRange d0).map fun a => |dm (a, ij.1, ij.2)|)
  if h : idx < d0 then
    if 0 < idx then dm (⟨idx, h⟩, ij.1, ij.2) else 0
  else 0

/-- Signed-difference projection along axis 1 (same idx > 0 guard). -/
def diff_proj_axis1 {d0 d1 d2 : ℕ} (dm : Vol3 d0 d1 d2 ℚ) :
    Fin d0 × Fin d2 → ℚ := fun ij =>
  let idx := npArgmax ((List.finRange d1).map fun a => |dm (ij.1, a, ij.2)|)
  if h : idx < d1 then
    if 0 < idx then dm (ij.1, ⟨idx, h⟩, ij.2) else 0
  else 0

/-- Signed-difference projection along axis 2 (same idx > 0 guard). -/
def diff_proj_axis2 {d0 d1 d2 : ℕ} (dm : Vol3 d0 d1 d2 ℚ) :
    Fin d0 × Fin d1 → ℚ := fun ij =>
  let idx := npArgmax ((List.finRange d2).map fun a => |dm (ij.1, ij.2, a)|)
  if h : idx < d2 then
    if 0 < idx then dm (ij.1, ij.2, ⟨idx, h⟩) else 0
  else 0

/-- Derived voxelwise t-test map of the comparator: the Welch test applied
to the two groups' naive mean/variance/count (to which the streaming
accumulator is proved equal).  Used to state the comparator's ok case. -/
def ttest_voxel {d0 d1 d2 : ℕ} (F : RE → RE → RE) (sq : ℚ → ℚ)
    (A B : List (Vol3 d0 d1 d2 ℚ)) : Vol3 d0 d1 d2 (RE × RE) :=
  fun v => ttest_ind_from_stats F sq (naive_mean A v) (naive_variance A v)
    A.length (naive_mean B v) (naive_variance B v) B.length

/-- The comparator's t_statistics volume after NaN replacement
(t_stats[np.isnan(t_stats)] = 0). -/
def t_replaced {d0 d1 d2 : ℕ} (F : RE → RE → RE) (sq : ℚ → ℚ)
    (A B : List (Vol3 d0 d1 d2 ℚ)) : Vol3 d0 d1 d2 RE :=
  fun v => if (ttest_voxel F sq A B v).1.isNan then RE.fin 0
    else (ttest_voxel F sq A B v).1

/-- The comparator's uncorrected p-value volume after NaN replacement
(p_values[np.isnan(p_values)] = 1.0). -/
def p_replaced {d0 d1 d2 : ℕ} (F : RE → RE → RE) (sq : ℚ → ℚ)
    (A B : List (Vol3 d0 d1 d2 ℚ)) : Vol3 d0 d1 d2 RE :=
  fun v => if (ttest_voxel F sq A B v).2.isNan then RE.fin 1
    else (ttest_voxel F sq A B v).2

/-- Scalar mirror of welfordUpd, used to reason about one voxel at a time. -/
def welfordUpdQ (st : ℚ × ℚ × ℕ) (x : ℚ) : ℚ × ℚ × ℕ :=
  let n : ℕ := st.2.2 + 1
  let mean := st.1
  let S := st.2.1
  let delta : ℚ := x - mean
  let mean' : ℚ := mean + delta / (n : ℚ)
  let delta2 : ℚ := x - mean'
  (mean', S + delta * delta2, n)

/-- Sum of squares of a list of rationals. -/
def sqsumQ (xs : List ℚ) : ℚ :=
  (xs.map (fun x => x ^ 2)).sum

theorem foldl_welfordUpd_count {ι : Type} (L : List (ι → ℚ))
    (st : (ι → ℚ) × (ι → ℚ) × ℕ) :
    (L.foldl welfordUpd st).2.2 = st.2.2 + L.length := by
  induction L generalizing st with
  | nil => simp
  | cons x xs ih =>
    rw [List.foldl_cons, ih]
    simp [welfordUpd]
    omega

theorem foldl_welfordUpd_eval {ι : Type} (L : List (ι → ℚ))
    (st : (ι → ℚ) × (ι → ℚ) × ℕ) (v : ι) :
    ((L.foldl welfordUpd st).1 v, (L.foldl welfordUpd st).2.1 v,
      (L.foldl welfordUpd st).2.2) =
    (L.map (fun x => x v)).foldl welfordUpdQ (st.1 v, st.2.1 v, st.2.2) := by
  induction L generalizing st with
  | nil => rfl
  | cons x xs ih =>
    rw [List.foldl_cons, List.map_cons, List.foldl_cons]
    exact ih (welfordUpd st x)

theorem welfordUpdQ_closed (xs : List ℚ) (x : ℚ) :
    welfordUpdQ
      (xs.sum / (xs.length : ℚ),
       sqsumQ xs - xs.sum ^ 2 / (xs.length : ℚ), xs.length) x =
    ((xs.sum + x) / ((xs.length : ℚ) + 1),
     sqsumQ xs + x ^ 2 - (xs.sum + x) ^ 2 / ((xs.length : ℚ) + 1),
     xs.length + 1) := by
  rcases eq_or_ne xs [] with hx | hx
  · subst hx
    simp [welfordUpdQ, sqsumQ]
  · have hn : (xs.length : ℚ) ≠ 0 := by
      exact_mod_cast Nat.pos_iff_ne_zero.mp (List.length_pos.mpr hx)
    have hn1 : (xs.length : ℚ) + 1 ≠ 0 := by positivity
    refine Prod.ext ?_ (Prod.ext ?_ rfl)
    · show xs.sum / (xs.length : ℚ) +
        (x - xs.sum / (xs.length : ℚ)) / (((xs.length : ℕ) + 1 : ℕ) : ℚ) = _
      push_cast
      field_simp
      ring
    · show sqsumQ xs - xs.sum ^ 2 / (xs.length : ℚ) +
        (x - xs.sum / (xs.length : ℚ)) *
          (x - (xs.sum / (xs.length : ℚ) +
            (x - xs.sum / (xs.length : ℚ)) / (((xs.length : ℕ) + 1 : ℕ) : ℚ))) = _
      push_cast
      field_simp
      ring

theorem welfordQ_closed (xs : List ℚ) :
    xs.foldl welfordUpdQ (0, 0, 0) =
      (xs.sum / (xs.length : ℚ),
       sqsumQ xs - xs.sum ^ 2 / (xs.length : ℚ), xs.length) := by
  induction xs using List.reverseRecOn with
  | nil => simp [sqsumQ]
  | append_singleton xs x ih =>
    rw [List.foldl_append, ih, List.foldl_cons, List.foldl_nil, welfordUpdQ_closed]
    simp [sqsumQ]

theorem sum_sub_sq (l : List ℚ) (c : ℚ) :
    (l.map (fun x => (x - c) ^ 2)).sum =
      sqsumQ l - 2 * c * l.sum + (l.length : ℚ) * c ^ 2 := by
  induction l with
  | nil => simp [sqsumQ]
  | cons y ys ih =>
    simp only [List.map_cons, List.sum_cons, ih, sqsumQ, List.length_cons]
    push_cast
    ring

theorem calc_eq_naive {ι : Type} (x : ι → ℚ) (xs : List (ι → ℚ)) :
    calculate_online_stats_3d (x :: xs) =
      (some (naive_mean (x :: xs)),
       some (if (x :: xs).length < 2 then (fun _ => 0) else naive_variance (x :: xs)),
       (x :: xs).length) := by
  have key : ∀ v : ι,
      (((x :: xs).foldl welfordUpd (fun _ => 0, fun _ => 0, 0)).1 v =
        naive_mean (x :: xs) v) ∧
      (((x :: xs).foldl welfordUpd (fun _ => 0, fun _ => 0, 0)).2.1 v =
        sqsumQ ((x :: xs).map (fun y => y v)) -
          ((x :: xs).map (fun y => y v)).sum ^ 2 / ((x :: xs).length : ℚ)) := by
    intro v
    have h : (((x :: xs).foldl welfordUpd (fun _ => 0, fun _ => 0, 0)).1 v,
        ((x :: xs).foldl welfordUpd (fun _ => 0, fun _ => 0, 0)).2.1 v,
        ((x :: xs).foldl welfordUpd (fun _ => 0, fun _ => 0, 0)).2.2) =
        ((x :: xs).map (fun y => y v)).foldl welfordUpdQ (0, 0, 0) :=
      foldl_welfordUpd_eval (x :: xs) (fun _ => 0, fun _ => 0, 0) v
    rw [welfordQ_closed] at h
    simp only [Prod.mk.injEq] at h
    obtain ⟨h1, h2, _⟩ := h
    refine ⟨?_, ?_⟩
    · rw [h1, naive_mean]
      simp [List.length_map]
    · rw [h2]
      simp [List.length_map]
  have hcount : ((x :: xs).foldl welfordUpd
      ((fun _ => (0 : ℚ)), (fun _ => (0 : ℚ)), (0 : ℕ))).2.2 = (x :: xs).length := by
    rw [foldl_welfordUpd_count]
    simp
  have hlen0 : (((x :: xs).length : ℕ) : ℚ) ≠ 0 := by
    rw [Nat.cast_ne_zero]
    simp
  show ((some (((x :: xs).foldl welfordUpd (fun _ => 0, fun _ => 0, 0)).1) :
          Option (ι → ℚ)),
        some (if ((x :: xs).foldl welfordUpd (fun _ => 0, fun _ => 0, 0)).2.2 < 2 then
                (fun _ => (0 : ℚ))
              else fun v =>
                ((x :: xs).foldl welfordUpd (fun _ => 0, fun _ => 0, 0)).2.1 v /
                  ((((x :: xs).foldl welfordUpd (fun _ => 0, fun _ => 0, 0)).2.2 : ℚ) - 1)),
        ((x :: xs).foldl welfordUpd (fun _ => 0, fun _ => 0, 0)).2.2) = _
  rw [hcount]
  refine Prod.ext ?_ (Prod.ext ?_ rfl)
  · show some _ = some _
    congr 1
    funext v
    exact (key v).1
  · show some _ = some _
    congr 1
    by_cases hlen : (x :: xs).length < 2
    · simp only [if_pos hlen]
    · simp only [if_neg hlen]
      funext v
      rw [(key v).2]
      have hs := sum_sub_sq ((x :: xs).map (fun y => y v)) (naive_mean (x :: xs) v)
      simp only [naive_variance]
      have hmapeq : (x :: xs).map
            (fun y => (y v - naive_mean (x :: xs) v) ^ 2) =
          ((x :: xs).map (fun y => y v)).map
            (fun t => (t - naive_mean (x :: xs) v) ^ 2) := by
        rw [List.map_map]
        rfl
      rw [hmapeq, hs]
      simp only [List.length_map]
      congr 1
      simp only [naive_mean]
      field_simp
      ring

theorem calc_count {ι : Type} (L : List (ι → ℚ)) :
    (calculate_online_stats_3d L).2.2 = L.length := by
  cases L with
  | nil => rfl
  | cons x xs => rw [calc_eq_naive]

theorem compare_insufficient {d0 d1 d2 : ℕ} (F : RE → RE → RE) (sq : ℚ → ℚ)
    (A B : List (Vol3 d0 d1 d2 ℚ)) (alpha : ℚ)
    (h : A.length < 2 ∨ B.length < 2) :
    compare_groups_voxelwise F sq A B alpha = .error .insufficientSamples := by
  have hc : (calculate_online_stats_3d A).2.2 < 2 ∨
      (calculate_online_stats_3d B).2.2 < 2 := by
    rw [calc_count, calc_count]
    exact h
  simp only [compare_groups_voxelwise]
  rw [if_pos hc]

theorem compare_ok_eq {d0 d1 d2 : ℕ} (F : RE → RE → RE) (sq : ℚ → ℚ)
    (a : Vol3 d0 d1 d2 ℚ) (as_ : List (Vol3 d0 d1 d2 ℚ))
    (b : Vol3 d0 d1 d2 ℚ) (bs : List (Vol3 d0 d1 d2 ℚ)) (alpha : ℚ)
    (hA : 2 ≤ (a :: as_).length) (hB : 2 ≤ (b :: bs).length) :
    compare_groups_voxelwise F sq (a :: as_) (b :: bs) alpha =
      .ok
        { t_statistics := t_replaced F sq (a :: as_) (b :: bs)
          p_values_uncorrected := p_replaced F sq (a :: as_) (b :: bs)
          p_values_corrected_fdr := unflatten3 RE.nan
            (fdrcorrection (flatten3 (p_replaced F sq (a :: as_) (b :: bs))) alpha).2
          significant_mask_fdr := unflatten3 false
            (fdrcorrection (flatten3 (p_replaced F sq (a :: as_) (b :: bs))) alpha).1
          mean_diff := fun v =>
            naive_mean (b :: bs) v - naive_mean (a :: as_) v } := by
  have hc : ¬ ((calculate_online_stats_3d (a :: as_)).2.2 < 2 ∨
      (calculate_online_stats_3d (b :: bs)).2.2 < 2) := by
    rw [calc_count, calc_count]
    omega
  simp only [compare_groups_voxelwise]
  rw [if_neg hc]
  rw [calc_eq_naive a as_, calc_eq_naive b bs]
  simp only [if_neg (not_lt.2 hA), if_neg (not_lt.2 hB)]
  rfl

theorem RE.isNan_neg (x : RE) : (RE.neg x).isNan = x.isNan := by
  cases x <;> rfl

theorem RE.abs_neg (x : RE) : (RE.neg x).abs = x.abs := by
  cases x with
  | fin q => simp [RE.neg, RE.abs]
  | pinf => rfl
  | ninf => rfl
  | nan => rfl

theorem RE.neg_fin_zero : RE.neg (RE.fin 0) = RE.fin 0 := by
  simp [RE.neg]

theorem RE.divQ_neg (a b : ℚ) : RE.divQ (-a) b = RE.neg (RE.divQ a b) := by
  unfold RE.divQ
  rcases eq_or_ne b 0 with hb | hb
  · subst hb
    rcases lt_trichotomy a 0 with ha | ha | ha
    · rw [if_pos rfl, if_pos rfl, if_neg (neg_ne_zero.mpr ha.ne),
        if_pos (by linarith), if_neg ha.ne, if_neg (not_lt.2 ha.le)]
      rfl
    · subst ha
      simp [RE.neg]
    · rw [if_pos rfl, if_pos rfl, if_neg (neg_ne_zero.mpr ha.ne'),
        if_neg (by linarith), if_neg ha.ne', if_pos ha]
      rfl
  · rw [if_neg hb, if_neg hb, neg_div]
    rfl

theorem ttest_swap (F : RE → RE → RE) (sq : ℚ → ℚ) (m1 v1 : ℚ) (n1 : ℕ)
    (m2 v2 : ℚ) (n2 : ℕ) :
    ttest_ind_from_stats F sq m2 v2 n2 m1 v1 n1 =
      (RE.neg (ttest_ind_from_stats F sq m1 v1 n1 m2 v2 n2).1,
       (ttest_ind_from_stats F sq m1 v1 n1 m2 v2 n2).2) := by
  simp only [ttest_ind_from_stats]
  have hder : v2 / (n2 : ℚ) + v1 / (n1 : ℚ) = v1 / (n1 : ℚ) + v2 / (n2 : ℚ) :=
    add_comm _ _
  have hdf : (v2 / (n2 : ℚ)) ^ 2 / ((n2 : ℚ) - 1) +
      (v1 / (n1 : ℚ)) ^ 2 / ((n1 : ℚ) - 1) =
      (v1 / (n1 : ℚ)) ^ 2 / ((n1 : ℚ) - 1) +
      (v2 / (n2 : ℚ)) ^ 2 / ((n2 : ℚ) - 1) := add_comm _ _
  rw [hder, hdf]
  have hms : m2 - m1 = -(m1 - m2) := by ring
  rw [hms, RE.divQ_neg, RE.abs_neg]

theorem ttest_zero_var (F : RE → RE → RE) (sq : ℚ → ℚ) (m1 m2 : ℚ)
    (n1 n2 : ℕ) (hsq : sq 0 = 0) (hFnan : ∀ d, F d RE.nan = RE.nan)
    (hm : m1 = m2) :
    ttest_ind_from_stats F sq m1 0 n1 m2 0 n2 = (RE.nan, RE.nan) := by
  subst hm
  simp only [ttest_ind_from_stats]
  norm_num [RE.divQ, hsq, RE.abs, RE.neg, RE.isNan, hFnan, RE.double]

/-- C1: for every non-empty list of same-shaped 3D volumes, the streaming
accumulator calculate_online_stats_3d (the one-pass Welford update, by its
definition via welfordUpd) returns exactly the naive two-pass mean, the
naive N-1 sample variance when the count is at least 2 and an all-zero
volume when the count is 1, together with the count. -/
theorem welford_streaming_eq_two_pass (d0 d1 d2 : ℕ)
    (x : Vol3 d0 d1 d2 ℚ) (xs : List (Vol3 d0 d1 d2 ℚ)) :
    calculate_online_stats_3d (x :: xs) =
      (some (naive_mean (x :: xs)),
       some (if (x :: xs).length < 2 then (fun _ => 0)
             else naive_variance (x :: xs)),
       (x :: xs).length) :=
  calc_eq_naive x xs

/-- C5 counterexample: on the empty path sequence the accumulator does not
fail; it returns the value (None, None, 0). -/
theorem calc_empty_returns_value :
    calculate_online_stats_3d_shaped [] = Except.ok (none, none, 0) := rfl

/-- C5 (amended): on the empty path sequence calculate_online_stats_3d
returns (None, None, 0) without failing; the enclosing
compare_groups_voxelwise then rejects the empty group through its
count < 2 check with the InsufficientSamplesError-kind error. -/
theorem calc_empty_behavior :
    calculate_online_stats_3d_shaped [] = Except.ok (none, none, 0) ∧
    ∀ (d0 d1 d2 : ℕ) (F : RE → RE → RE) (sq : ℚ → ℚ)
      (B : List (Vol3 d0 d1 d2 ℚ)) (alpha : ℚ),
      compare_groups_voxelwise F sq [] B alpha =
        .error .insufficientSamples :=
  ⟨rfl, fun _ _ _ F sq B alpha =>
    compare_insufficient F sq [] B alpha (Or.inl (by simp))⟩

/-- C8: compare_groups_voxelwise fails with the InsufficientSamplesError-kind
error exactly when one of the two group counts is below 2, and returns a
result exactly when both counts are at least 2. -/
theorem compare_insufficient_iff (d0 d1 d2 : ℕ) (F : RE → RE → RE)
    (sq : ℚ → ℚ) (A B : List (Vol3 d0 d1 d2 ℚ)) (alpha : ℚ) :
    (compare_groups_voxelwise F sq A B alpha = .error .insufficientSamples ↔
      A.length < 2 ∨ B.length < 2) ∧
    ((∃ r, compare_groups_voxelwise F sq A B alpha = .ok r) ↔
      2 ≤ A.length ∧ 2 ≤ B.length) := by
  by_cases hc : A.length < 2 ∨ B.length < 2
  · rw [compare_insufficient F sq A B alpha hc]
    constructor
    · exact ⟨fun _ => hc, fun _ => rfl⟩
    · constructor
      · rintro ⟨r, hr⟩
        cases hr
      · intro h
        exact absurd hc (by omega)
  · push_neg at hc
    rcases A with _ | ⟨a, as_⟩
    · exact absurd hc.1 (by simp)
    rcases B with _ | ⟨b, bs⟩
    · exact absurd hc.2 (by simp)
    rw [compare_ok_eq F sq a as_ b bs alpha hc.1 hc.2]
    constructor
    · constructor
      · intro h
        cases h
      · intro h
        rcases h with h | h
        · exact absurd hc.1 (by omega)
        · exact absurd hc.2 (by omega)
    · exact ⟨fun _ => ⟨hc.1, hc.2⟩, fun _ => ⟨_, rfl⟩⟩

/-- C10: for accepted inputs (both groups of size at least 2) the returned
t_statistics and p_values_uncorrected volumes contain no NaN at any voxel:
the NaN replacements t[isnan] = 0 and p[isnan] = 1 are applied
unconditionally to every NaN, whatever produced it. -/
theorem no_nan_in_outputs (d0 d1 d2 : ℕ) (F : RE → RE → RE) (sq : ℚ → ℚ)
    (a1 a2 : Vol3 d0 d1 d2 ℚ) (as_ : List (Vol3 d0 d1 d2 ℚ))
    (b1 b2 : Vol3 d0 d1 d2 ℚ) (bs : List (Vol3 d0 d1 d2 ℚ)) (alpha : ℚ) :
    ∃ r, compare_groups_voxelwise F sq (a1 :: a2 :: as_) (b1 :: b2 :: bs)
        alpha = .ok r ∧
      ∀ v, (r.t_statistics v).isNan = false ∧
        (r.p_values_uncorrected v).isNan = false := by
  refine ⟨_, compare_ok_eq F sq a1 (a2 :: as_) b1 (b2 :: bs) alpha
    (by simp) (by simp), ?_⟩
  intro v
  constructor
  · show (t_replaced F sq (a1 :: a2 :: as_) (b1 :: b2 :: bs) v).isNan = false
    unfold t_replaced
    by_cases h : (ttest_voxel F sq (a1 :: a2 :: as_) (b1 :: b2 :: bs) v).1.isNan
    · rw [if_pos h]
      rfl
    · rw [if_neg h]
      simpa using h
  · show (p_replaced F sq (a1 :: a2 :: as_) (b1 :: b2 :: bs) v).isNan = false
    unfold p_replaced
    by_cases h : (ttest_voxel F sq (a1 :: a2 :: as_) (b1 :: b2 :: bs) v).2.isNan
    · rw [if_pos h]
      rfl
    · rw [if_neg h]
      simpa using h

/-- C2 counterexample: with A = two constant-0 volumes and B = two
constant-1 volumes on a 1x1x1 grid, every voxel has zero variance in both
groups (denominator zero), yet the comparator returns t = -inf (scipy:
(0-1)/sqrt(0) with the NaN df replaced by 1) and p = 0 — not t = 0, p = 1,
and an infinity reaches the returned volume. -/
theorem zero_variance_not_always_replaced :
    Except.map
        (fun r => (r.t_statistics (0, 0, 0), r.p_values_uncorrected (0, 0, 0)))
        (@compare_groups_voxelwise 1 1 1 stdtrModel Rat.sqrt
          [fun _ => 0, fun _ => 0] [fun _ => 1, fun _ => 1] (1 / 20)) =
      Except.ok (RE.ninf, RE.fin 0) ∧
    naive_variance ([fun _ => 0, fun _ => 0] : List (Vol3 1 1 1 ℚ))
        (0, 0, 0) = 0 ∧
    naive_variance ([fun _ => 1, fun _ => 1] : List (Vol3 1 1 1 ℚ))
        (0, 0, 0) = 0 ∧
    RE.ninf ≠ RE.fin 0 ∧ RE.fin 0 ≠ RE.fin 1 :=
  ⟨by with_unfolding_all rfl, by with_unfolding_all decide,
   by with_unfolding_all decide, by with_unfolding_all decide,
   by with_unfolding_all decide⟩

/-- C2 (amended): at every voxel where both groups have zero variance AND
the two group means coincide (the case in which the t-test produces NaN),
the comparator replaces the t-statistic by 0 and the p-value by 1; in
particular two groups of constant, identical-valued arrays give t = 0 and
p = 1 everywhere.  (Where both variances are zero but the means differ, the
t-statistic is instead an infinity and survives; see the counterexample.) -/
theorem zero_variance_equal_means_replaced (d0 d1 d2 : ℕ)
    (F : RE → RE → RE) (sq : ℚ → ℚ)
    (a : Vol3 d0 d1 d2 ℚ) (as_ : List (Vol3 d0 d1 d2 ℚ))
    (b : Vol3 d0 d1 d2 ℚ) (bs : List (Vol3 d0 d1 d2 ℚ)) (alpha : ℚ)
    (hA : 2 ≤ (a :: as_).length) (hB : 2 ≤ (b :: bs).length)
    (hsq : sq 0 = 0) (hFnan : ∀ d, F d RE.nan = RE.nan)
    (v : Fin d0 × Fin d1 × Fin d2)
    (hvA : naive_variance (a :: as_) v = 0)
    (hvB : naive_variance (b :: bs) v = 0)
    (hmv : naive_mean (a :: as_) v = naive_mean (b :: bs) v) :
    ∃ r, compare_groups_voxelwise F sq (a :: as_) (b :: bs) alpha = .ok r ∧
      r.t_statistics v = RE.fin 0 ∧ r.p_values_uncorrected v = RE.fin 1 := by
  refine ⟨_, compare_ok_eq F sq a as_ b bs alpha hA hB, ?_, ?_⟩
  · show t_replaced F sq (a :: as_) (b :: bs) v = RE.fin 0
    unfold t_replaced ttest_voxel
    rw [hvA, hvB, ttest_zero_var F sq _ _ _ _ hsq hFnan hmv]
    rfl
  · show p_replaced F sq (a :: as_) (b :: bs) v = RE.fin 1
    unfold p_replaced ttest_voxel
    rw [hvA, hvB, ttest_zero_var F sq _ _ _ _ hsq hFnan hmv]
    rfl

/-- C2 witness: the amended theorem applied to two groups of two constant
volumes of value 5 on a 1x1x1 grid. -/
theorem zero_variance_equal_means_replaced_witness :
    (2 ≤ ([fun _ => 5, fun _ => 5] :
        List (Vol3 1 1 1 ℚ)).length) ∧
    Rat.sqrt 0 = 0 ∧
    naive_variance ([fun _ => 5, fun _ => 5] : List (Vol3 1 1 1 ℚ))
        (0, 0, 0) = 0 ∧
    (∃ r, @compare_groups_voxelwise 1 1 1
        stdtrModel Rat.sqrt [fun _ => 5, fun _ => 5] [fun _ => 5, fun _ => 5]
        (1 / 20) = .ok r ∧
      r.t_statistics (0, 0, 0) = RE.fin 0 ∧
      r.p_values_uncorrected (0, 0, 0) = RE.fin 1) :=
  ⟨by decide, by with_unfolding_all decide, by with_unfolding_all decide,
    zero_variance_equal_means_replaced 1 1 1 stdtrModel Rat.sqrt
      (fun _ => 5) [fun _ => 5] (fun _ => 5) [fun _ => 5] (1 / 20)
      (by decide) (by decide) (by with_unfolding_all decide)
      (fun d => by cases d <;> rfl) (0, 0, 0)
      (by with_unfolding_all decide) (by with_unfolding_all decide) rfl⟩

/-- C4: at the failing input (axis 0, all voxels significant, mean
difference 5 at index 0 and 3 at index 1 along axis 0, shape (2,1,1)), the
argmax of the absolute masked difference along axis 0 is index 0 with value
5, yet the projection pixel is set to 0 by the idx > 0 guard of
visualize_single_projection, not to the signed value 5 that the
specification requires. -/
theorem signed_projection_drops_argmax_zero :
    npArgmax ((List.finRange 2).map fun i =>
        |(@diff_mask_vol 2 1 1 (fun _ => true)
            (fun v => if v.1.val = 0 then 5 else 3)) (i, 0, 0)|) = 0 ∧
    (@diff_mask_vol 2 1 1 (fun _ => true)
        (fun v => if v.1.val = 0 then 5 else 3)) (0, 0, 0) = 5 ∧
    diff_proj_axis0 (@diff_mask_vol 2 1 1
        (fun _ => true) (fun v => if v.1.val = 0 then 5 else 3)) (0, 0) = 0 := by
  with_unfolding_all decide

/-- C7: swapping group A and group B negates the t-statistic volume and the
mean-difference volume voxel-wise and leaves the uncorrected and corrected
p-value volumes (and the significance mask) unchanged; |t| is unchanged
because RE.abs is invariant under RE.neg (final conjunct).  This holds for
every square root model and every Student CDF model, including on the
insufficient-count error path. -/
theorem swap_groups_negates_t (d0 d1 d2 : ℕ) (F : RE → RE → RE)
    (sq : ℚ → ℚ) (A B : List (Vol3 d0 d1 d2 ℚ)) (alpha : ℚ) :
    compare_groups_voxelwise F sq B A alpha =
      Except.map (fun r =>
        { t_statistics := fun v => RE.neg (r.t_statistics v)
          p_values_uncorrected := r.p_values_uncorrected
          p_values_corrected_fdr := r.p_values_corrected_fdr
          significant_mask_fdr := r.significant_mask_fdr
          mean_diff := fun v => -(r.mean_diff v) })
        (compare_groups_voxelwise F sq A B alpha) ∧
    ∀ x : RE, (RE.neg x).abs = x.abs := by
  refine ⟨?_, RE.abs_neg⟩
  by_cases hc : A.length < 2 ∨ B.length < 2
  · rw [compare_insufficient F sq A B alpha hc,
      compare_insufficient F sq B A alpha (Or.symm hc)]
    rfl
  · push_neg at hc
    rcases A with _ | ⟨a, as_⟩
    · exact absurd hc.1 (by simp)
    rcases B with _ | ⟨b, bs⟩
    · exact absurd hc.2 (by simp)
    rw [compare_ok_eq F sq a as_ b bs alpha hc.1 hc.2,
        compare_ok_eq F sq b bs a as_ alpha hc.2 hc.1]
    have ht : ∀ v, ttest_voxel F sq (b :: bs) (a :: as_) v =
        (RE.neg (ttest_voxel F sq (a :: as_) (b :: bs) v).1,
         (ttest_voxel F sq (a :: as_) (b :: bs) v).2) := by
      intro v
      unfold ttest_voxel
      exact ttest_swap F sq (naive_mean (a :: as_) v)
        (naive_variance (a :: as_) v) (a :: as_).length
        (naive_mean (b :: bs) v) (naive_variance (b :: bs) v)
        (b :: bs).length
    have htr : t_replaced F sq (b :: bs) (a :: as_) =
        fun v => RE.neg (t_replaced F sq (a :: as_) (b :: bs) v) := by
      funext v
      unfold t_replaced
      rw [ht v]
      show (if (RE.neg (ttest_voxel F sq (a :: as_) (b :: bs) v).1).isNan then
          RE.fin 0
        else RE.neg (ttest_voxel F sq (a :: as_) (b :: bs) v).1) = _
      rw [RE.isNan_neg]
      by_cases h : (ttest_voxel F sq (a :: as_) (b :: bs) v).1.isNan
      · rw [if_pos h, if_pos h, RE.neg_fin_zero]
      · rw [if_neg h, if_neg h]
    have hpunc : p_replaced F sq (b :: bs) (a :: as_) =
        p_replaced F sq (a :: as_) (b :: bs) := by
      funext v
      unfold p_replaced
      rw [ht v]
    have hmd : (fun v => naive_mean (a :: as_) v - naive_mean (b :: bs) v) =
        fun v => -(naive_mean (b :: bs) v - naive_mean (a :: as_) v) := by
      funext v
      ring
    show Except.ok _ = Except.ok _
    rw [htr, hpunc, hmd]


theorem bcastDim_self (a : ℕ) : bcastDim a a = some a := by
  simp [bcastDim]

theorem bcastDim_unique {a b c : ℕ} (h1 : bcastDim a b = some c)
    (h2 : bcastDim b c = some b) : c = b := by
  unfold bcastDim at h1 h2
  by_cases hab : a = b
  · rw [if_pos hab] at h1
    have := Option.some.inj h1
    omega
  · rw [if_neg hab] at h1
    by_cases ha1 : a = 1
    · rw [if_pos ha1] at h1
      exact (Option.some.inj h1).symm
    · rw [if_neg ha1] at h1
      by_cases hb1 : b = 1
      · rw [if_pos hb1] at h1
        have hca : c = a := (Option.some.inj h1).symm
        subst hca
        subst hb1
        by_cases h1c : (1 : ℕ) = c
        · omega
        · rw [if_neg h1c, if_pos rfl] at h2
          have := Option.some.inj h2
          omega
      · rw [if_neg hb1] at h1
        cases h1

theorem bcastRev_self (r : List ℕ) : bcastRev r r = some r := by
  induction r with
  | nil => rfl
  | cons a as_ ih =>
    show (match bcastRev as_ as_, bcastDim a a with
      | some rest, some c => some (c :: rest)
      | _, _ => none) = some (a :: as_)
    rw [ih, bcastDim_self]

theorem broadcastShapes_self (s : List ℕ) : broadcastShapes s s = some s := by
  unfold broadcastShapes
  rw [bcastRev_self]
  simp

theorem bcastRev_cons_inv {a b : ℕ} {as_ bs sr : List ℕ} :
    bcastRev (a :: as_) (b :: bs) = some sr →
    ∃ rest c, bcastRev as_ bs = some rest ∧ bcastDim a b = some c ∧
      sr = c :: rest := by
  simp only [bcastRev]
  rcases h1 : bcastRev as_ bs with _ | rest <;>
    rcases h2 : bcastDim a b with _ | c <;> intro h
  · cases h
  · cases h
  · cases h
  · exact ⟨rest, c, rfl, rfl, (Option.some.inj h).symm⟩

theorem bcastRev_unique (shr : List ℕ) : ∀ (xr sr : List ℕ),
    bcastRev xr shr = some sr → bcastRev shr sr = some shr → sr = shr := by
  induction shr with
  | nil =>
    intro xr sr h1 h2
    cases xr with
    | nil => exact (Option.some.inj h1).symm
    | cons x0 xr' =>
      have hsr : sr = x0 :: xr' := (Option.some.inj h1).symm
      subst hsr
      exact Option.some.inj h2
  | cons s0 shr' ih =>
    intro xr sr h1 h2
    cases xr with
    | nil => exact (Option.some.inj h1).symm
    | cons x0 xr' =>
      obtain ⟨rest, c, hrec, hdim, rfl⟩ := bcastRev_cons_inv h1
      obtain ⟨rest2, e, hrec2, hdim2, heq⟩ := bcastRev_cons_inv h2
      have he : s0 = e := by injection heq
      have hrest2 : shr' = rest2 := by injection heq
      rw [← hrest2] at hrec2
      have hr : rest = shr' := ih xr' rest hrec hrec2
      subst hr
      rw [← he] at hdim2
      rw [bcastDim_unique hdim hdim2]

theorem broadcastShapes_unique {x sh s : List ℕ}
    (h1 : broadcastShapes x sh = some s)
    (h2 : broadcastShapes sh s = some sh) : s = sh := by
  unfold broadcastShapes at h1 h2
  obtain ⟨t1, ht1, hrev1⟩ := Option.map_eq_some'.mp h1
  obtain ⟨t2, ht2, hrev2⟩ := Option.map_eq_some'.mp h2
  have ht1' : bcastRev x.reverse sh.reverse = some s.reverse := by
    rw [ht1, ← hrev1, List.reverse_reverse]
  have ht2' : bcastRev sh.reverse s.reverse = some sh.reverse := by
    rw [ht2, ← hrev2, List.reverse_reverse]
  have h := bcastRev_unique sh.reverse x.reverse s.reverse ht1' ht2'
  have h' := congrArg List.reverse h
  simpa [List.reverse_reverse] using h'

theorem bcastOp_eq_some {f : ℚ → ℚ → ℚ} {a b : NArr} {s : List ℕ}
    (h : broadcastShapes a.shape b.shape = some s) :
    NArr.bcastOp f a b = some ⟨s, (allIdx s).map fun idx =>
      f (a.get (opIdx a.shape idx)) (b.get (opIdx b.shape idx))⟩ := by
  unfold NArr.bcastOp
  rw [h]

theorem bcastOp_eq_none {f : ℚ → ℚ → ℚ} {a b : NArr}
    (h : broadcastShapes a.shape b.shape = none) :
    NArr.bcastOp f a b = none := by
  unfold NArr.bcastOp
  rw [h]

theorem iadd_eq_of {a b : NArr}
    (h : broadcastShapes a.shape b.shape = some a.shape) :
    NArr.iadd a b = .ok ⟨a.shape, (allIdx a.shape).map fun idx =>
      a.get (opIdx a.shape idx) + b.get (opIdx b.shape idx)⟩ := by
  unfold NArr.iadd
  rw [bcastOp_eq_some h]
  simp

theorem bcastOp_none_bcast {f : ℚ → ℚ → ℚ} {a b : NArr}
    (h : NArr.bcastOp f a b = none) :
    broadcastShapes a.shape b.shape = none := by
  rcases hs : broadcastShapes a.shape b.shape with _ | s
  · rfl
  · rw [bcastOp_eq_some hs] at h
    cases h

theorem bcastOp_shape {f : ℚ → ℚ → ℚ} {a b c : NArr}
    (h : NArr.bcastOp f a b = some c) :
    broadcastShapes a.shape b.shape = some c.shape := by
  rcases hs : broadcastShapes a.shape b.shape with _ | s
  · rw [bcastOp_eq_none hs] at h
    cases h
  · rw [bcastOp_eq_some hs] at h
    cases Option.some.inj h
    rfl

theorem iadd_ok_shape {a b c : NArr} (h : NArr.iadd a b = .ok c) :
    broadcastShapes a.shape b.shape = some a.shape ∧ c.shape = a.shape := by
  unfold NArr.iadd at h
  rcases hs : NArr.bcastOp (fun u v => u + v) a b with _ | d
  · rw [hs] at h
    cases h
  · rw [hs] at h
    dsimp only at h
    by_cases hd : d.shape = a.shape
    · rw [if_pos hd] at h
      cases Except.ok.inj h
      exact ⟨by rw [bcastOp_shape hs, hd], hd⟩
    · rw [if_neg hd] at h
      cases h

theorem iadd_error_bcast {a b : NArr} {e : AccErr}
    (h : NArr.iadd a b = .error e) :
    broadcastShapes a.shape b.shape ≠ some a.shape := by
  intro hc
  rw [iadd_eq_of hc] at h
  cases h

theorem welfordStep_ok (st : NArr × NArr × ℕ) (x : NArr) (sh : List ℕ)
    (h1 : st.1.shape = sh) (h2 : st.2.1.shape = sh)
    (hb : broadcastShapes x.shape sh = some sh) :
    ∃ m S, welfordStepShaped st x = .ok (m, S, st.2.2 + 1) ∧
      m.shape = sh ∧ S.shape = sh := by
  have hb1 : broadcastShapes x.shape st.1.shape = some sh := by
    rw [h1]
    exact hb
  simp only [welfordStepShaped]
  rcases hd : NArr.bcastOp (fun u v => u - v) x st.1 with _ | delta
  · have hn := bcastOp_none_bcast hd
    rw [hb1] at hn
    cases hn
  · have hdsh : delta.shape = sh := by
      have hx := bcastOp_shape hd
      rw [hb1] at hx
      exact (Option.some.inj hx).symm
    dsimp only
    rcases hi : NArr.iadd st.1
        ⟨delta.shape, delta.data.map fun q => q / ((st.2.2 + 1 : ℕ) : ℚ)⟩
        with e | mean'
    · exact ((iadd_error_bcast hi)
        (show broadcastShapes st.1.shape delta.shape = some st.1.shape by
          rw [hdsh, h1]
          exact broadcastShapes_self sh)).elim
    · have hmsh : mean'.shape = st.1.shape := (iadd_ok_shape hi).2
      dsimp only
      rcases hd2 : NArr.bcastOp (fun u v => u - v) x mean' with _ | delta2
      · have hn := bcastOp_none_bcast hd2
        rw [hmsh, hb1] at hn
        cases hn
      · have hd2sh : delta2.shape = sh := by
          have hx := bcastOp_shape hd2
          rw [hmsh, hb1] at hx
          exact (Option.some.inj hx).symm
        dsimp only
        rcases hdd : NArr.bcastOp (fun u v => u * v) delta delta2 with _ | dd
        · have hn := bcastOp_none_bcast hdd
          rw [hdsh, hd2sh, broadcastShapes_self] at hn
          cases hn
        · have hddsh : dd.shape = sh := by
            have hx := bcastOp_shape hdd
            rw [hdsh, hd2sh, broadcastShapes_self] at hx
            exact (Option.some.inj hx).symm
          dsimp only
          rcases hs2 : NArr.iadd st.2.1 dd with e | S'
          · exact ((iadd_error_bcast hs2)
              (show broadcastShapes st.2.1.shape dd.shape = some st.2.1.shape by
                rw [hddsh, h2]
                exact broadcastShapes_self sh)).elim
          · have hS'sh : S'.shape = st.2.1.shape := (iadd_ok_shape hs2).2
            dsimp only
            exact ⟨mean', S', rfl, by rw [hmsh, h1], by rw [hS'sh, h2]⟩

theorem welfordStep_err (st : NArr × NArr × ℕ) (x : NArr) (sh : List ℕ)
    (h1 : st.1.shape = sh)
    (hb : broadcastShapes x.shape sh ≠ some sh) :
    welfordStepShaped st x = .error .broadcastMismatch := by
  simp only [welfordStepShaped]
  rcases hd : NArr.bcastOp (fun u v => u - v) x st.1 with _ | delta
  · rfl
  · have hds : broadcastShapes x.shape sh = some delta.shape := by
      have hx := bcastOp_shape hd
      rw [h1] at hx
      exact hx
    dsimp only
    rcases hi : NArr.iadd st.1
        ⟨delta.shape, delta.data.map fun q => q / ((st.2.2 + 1 : ℕ) : ℚ)⟩
        with e | mean'
    · cases e
      rfl
    · exfalso
      have hia : broadcastShapes st.1.shape delta.shape = some st.1.shape :=
        (iadd_ok_shape hi).1
      rw [h1] at hia
      have hteq := broadcastShapes_unique hds hia
      rw [hteq] at hds
      exact hb hds

theorem foldlM_welford_ok_iff (L : List NArr) :
    ∀ (st : NArr × NArr × ℕ) (sh : List ℕ),
    st.1.shape = sh → st.2.1.shape = sh →
    ((∃ st', L.foldlM welfordStepShaped st = .ok st') ↔
      ∀ y ∈ L, broadcastShapes y.shape sh = some sh) := by
  induction L with
  | nil =>
    intro st sh h1 h2
    constructor
    · intro _
      intro y hy
      cases hy
    · intro _
      exact ⟨st, rfl⟩
  | cons y ys ih =>
    intro st sh h1 h2
    rw [List.foldlM_cons]
    by_cases hy : broadcastShapes y.shape sh = some sh
    · obtain ⟨m, S, hstep, hm, hS⟩ := welfordStep_ok st y sh h1 h2 hy
      rw [hstep]
      show (∃ st', ys.foldlM welfordStepShaped (m, S, st.2.2 + 1) = .ok st') ↔ _
      rw [ih (m, S, st.2.2 + 1) sh hm hS]
      simp [List.forall_mem_cons, hy]
    · rw [welfordStep_err st y sh h1 hy]
      show (∃ st', (Except.error AccErr.broadcastMismatch :
        Except AccErr (NArr × NArr × ℕ)) = .ok st') ↔ _
      constructor
      · rintro ⟨st', h⟩
        cases h
      · intro hall
        exact absurd (hall y (by simp)) hy

theorem calc_shaped_eq_fold (first : NArr) (rest : List NArr) :
    calculate_online_stats_3d_shaped (first :: rest) =
      ((first :: rest).foldlM welfordStepShaped
        (NArr.zerosLike first.shape, NArr.zerosLike first.shape, 0)).map
        (fun st =>
          (some st.1,
           some (if st.2.2 < 2 then NArr.zerosLike st.1.shape
             else ⟨st.2.1.shape, st.2.1.data.map fun q => q / ((st.2.2 : ℚ) - 1)⟩),
           st.2.2)) := by
  simp only [calculate_online_stats_3d_shaped]
  rcases hst : (first :: rest).foldlM welfordStepShaped
      (NArr.zerosLike first.shape, NArr.zerosLike first.shape, 0) with e | st
  · rfl
  · rfl

/-- C6 (amended): the accumulator performs no shape check of its own.  On a
non-empty input it succeeds exactly when every array's shape broadcasts
against the first array's shape back to that same shape — so an array of a
DIFFERENT but broadcast-compatible shape is folded in silently and
statistics over the inconsistent set are produced; only a
broadcast-incompatible shape aborts, with the array library's generic
broadcast error (which carries no path). -/
theorem calc_shaped_ok_iff (first : NArr) (rest : List NArr) :
    (∃ r, calculate_online_stats_3d_shaped (first :: rest) = .ok r) ↔
      ∀ y ∈ first :: rest,
        broadcastShapes y.shape first.shape = some first.shape := by
  rw [calc_shaped_eq_fold]
  rw [← foldlM_welford_ok_iff (first :: rest)
    (NArr.zerosLike first.shape, NArr.zerosLike first.shape, 0)
    first.shape rfl rfl]
  constructor
  · rintro ⟨r, hr⟩
    rcases hst : (first :: rest).foldlM welfordStepShaped
        (NArr.zerosLike first.shape, NArr.zerosLike first.shape, 0)
        with e | st
    · rw [hst] at hr
      simp [Except.map] at hr
    · exact ⟨st, rfl⟩
  · rintro ⟨st, hst⟩
    rw [hst]
    exact ⟨_, rfl⟩

/-- C6 counterexample: a group whose second array has a different but
broadcast-compatible shape ((1,1,1) against (1,1,2)) runs to completion
with no error of any kind; the returned statistics silently mix the two
shapes through broadcasting.  (The second conjunct records that the shapes
really differ.) -/
theorem shape_mismatch_not_rejected :
    calculate_online_stats_3d_shaped
        [⟨[1, 1, 2], [3, 5]⟩, ⟨[1, 1, 1], [10]⟩] =
      Except.ok (some ⟨[1, 1, 2], [13/2, 15/2]⟩,
        some ⟨[1, 1, 2], [49/2, 25/2]⟩, 2) ∧
    NArr.shape ⟨[1, 1, 1], [10]⟩ ≠ NArr.shape ⟨[1, 1, 2], [3, 5]⟩ := by
  constructor
  · with_unfolding_all rfl
  · with_unfolding_all decide

theorem RE.keyLe_total (x y : RE) : (RE.keyLe x y || RE.keyLe y x) = true := by
  cases x <;> cases y <;> simp [RE.keyLe] <;> exact le_total _ _

theorem RE.keyLe_trans {x y z : RE} (h1 : RE.keyLe x y = true)
    (h2 : RE.keyLe y z = true) : RE.keyLe x z = true := by
  cases x <;> cases y <;> cases z <;> simp_all [RE.keyLe] <;> exact le_trans h1 h2

theorem fdrPairLe_total (a b : ℕ × RE) :
    (fdrPairLe a b || fdrPairLe b a) = true := by
  unfold fdrPairLe
  by_cases h1 : RE.keyLe a.2 b.2 = true <;>
    by_cases h2 : RE.keyLe b.2 a.2 = true <;>
    simp [h1, h2]
  · omega
  · have := RE.keyLe_total a.2 b.2
    simp [h1, h2] at this

theorem fdrPairLe_trans {a b c : ℕ × RE} (hab : fdrPairLe a b = true)
    (hbc : fdrPairLe b c = true) : fdrPairLe a c = true := by
  unfold fdrPairLe at hab hbc ⊢
  by_cases h1 : RE.keyLe a.2 b.2 = true
  swap
  · simp [h1] at hab
  by_cases h3 : RE.keyLe b.2 c.2 = true
  swap
  · simp [h3] at hbc
  rw [if_pos (RE.keyLe_trans h1 h3)]
  by_cases h5 : RE.keyLe c.2 a.2 = true
  swap
  · simp [h5]
  rw [if_pos h5]
  have h6 : RE.keyLe b.2 a.2 = true := RE.keyLe_trans h3 h5
  have h7 : RE.keyLe c.2 b.2 = true := RE.keyLe_trans h5 h1
  rw [if_pos h1, if_pos h6] at hab
  rw [if_pos h3, if_pos h7] at hbc
  simp only [decide_eq_true_eq] at hab hbc ⊢
  omega

theorem RE.leB_fin_iff (a b : ℚ) :
    RE.leB (RE.fin a) (RE.fin b) = true ↔ a ≤ b := by
  simp [RE.leB]

theorem RE.npMin_fin_cases (a b : ℚ) :
    (RE.npMin (RE.fin a) (RE.fin b) = RE.fin a ∧ a ≤ b) ∨
    (RE.npMin (RE.fin a) (RE.fin b) = RE.fin b ∧ b ≤ a) := by
  by_cases h : a ≤ b
  · left
    refine ⟨?_, h⟩
    simp [RE.npMin, RE.isNan, RE.leB, h]
  · right
    refine ⟨?_, le_of_not_le h⟩
    simp [RE.npMin, RE.isNan, RE.leB, h]

theorem suffixMins_length (l : List RE) :
    (suffixMins l).length = l.length := by
  induction l with
  | nil => rfl
  | cons x xs ih =>
    simp only [suffixMins]
    rcases hs : suffixMins xs with _ | ⟨y, ys⟩
    · rw [hs] at ih
      dsimp only
      simp only [List.length_cons, List.length_nil] at ih ⊢
      omega
    · rw [hs] at ih
      dsimp only
      simp only [List.length_cons] at ih ⊢
      omega

theorem allFin_suffixMins : ∀ (l : List RE),
    (∀ x ∈ l, ∃ q, x = RE.fin q) →
    ∀ x ∈ suffixMins l, ∃ q, x = RE.fin q := by
  intro l
  induction l with
  | nil =>
    intro _ x hx
    cases hx
  | cons a as_ ih =>
    intro hfin x hx
    rcases hs : suffixMins as_ with _ | ⟨y, ys⟩
    · have hstruct : suffixMins (a :: as_) = [a] := by
        simp only [suffixMins, hs]
      rw [hstruct] at hx
      simp at hx
      rw [hx]
      exact hfin a (by simp)
    · have hstruct : suffixMins (a :: as_) = RE.npMin a y :: y :: ys := by
        simp only [suffixMins, hs]
      rw [hstruct] at hx
      rcases List.mem_cons.mp hx with rfl | hx'
      · obtain ⟨qa, hqa⟩ := hfin a (by simp)
        obtain ⟨qy, hqy⟩ :=
          ih (fun z hz => hfin z (by simp [hz])) y (by rw [hs]; simp)
        subst hqa
        subst hqy
        rcases RE.npMin_fin_cases qa qy with ⟨he, _⟩ | ⟨he, _⟩ <;> exact ⟨_, he⟩
      · exact ih (fun z hz => hfin z (by simp [hz])) x (by rw [hs]; exact hx')

theorem suffixMins_le : ∀ (l : List RE), (∀ x ∈ l, ∃ q, x = RE.fin q) →
    ∀ k i, k ≤ i → i < l.length →
    RE.leB ((suffixMins l).getD k RE.nan) (l.getD i RE.nan) = true := by
  intro l
  induction l with
  | nil =>
    intro _ k i _ hi
    simp at hi
  | cons a as_ ih =>
    intro hfin k i hki hi
    obtain ⟨qa, hqa⟩ := hfin a (by simp)
    have hfin' : ∀ x ∈ as_, ∃ q, x = RE.fin q := fun z hz => hfin z (by simp [hz])
    rcases hs : suffixMins as_ with _ | ⟨y, ys⟩
    · have has : as_ = [] := by
        have hl := suffixMins_length as_
        rw [hs] at hl
        exact List.length_eq_zero.mp hl.symm
      subst has
      have hi0 : i = 0 := by simpa using hi
      have hk0 : k = 0 := by omega
      subst hi0
      subst hk0
      have hstruct : suffixMins (a :: ([] : List RE)) = [a] := by
        simp only [suffixMins]
      rw [hstruct]
      simp only [List.getD_cons_zero]
      rw [hqa]
      exact (RE.leB_fin_iff qa qa).mpr le_rfl
    · have hstruct : suffixMins (a :: as_) = RE.npMin a y :: y :: ys := by
        simp only [suffixMins, hs]
      rw [hstruct]
      obtain ⟨qy, hqy⟩ := allFin_suffixMins as_ hfin' y (by rw [hs]; simp)
      cases k with
      | zero =>
        simp only [List.getD_cons_zero]
        cases i with
        | zero =>
          simp only [List.getD_cons_zero]
          rw [hqa, hqy]
          rcases RE.npMin_fin_cases qa qy with ⟨he, _⟩ | ⟨he, hle⟩
          · rw [he]
            exact (RE.leB_fin_iff qa qa).mpr le_rfl
          · rw [he]
            exact (RE.leB_fin_iff qy qa).mpr hle
        | succ i' =>
          simp only [List.getD_cons_succ]
          have hi' : i' < as_.length := by simpa using hi
          have h2 : RE.leB ((suffixMins as_).getD 0 RE.nan)
              (as_.getD i' RE.nan) = true :=
            ih hfin' 0 i' (Nat.zero_le _) hi'
          rw [hs] at h2
          simp only [List.getD_cons_zero] at h2
          obtain ⟨qi, hqi⟩ := hfin' (as_.getD i' RE.nan) (by
            rw [List.getD_eq_getElem _ _ hi']
            exact List.getElem_mem hi')
          rw [hqy, hqi] at h2
          rw [RE.leB_fin_iff] at h2
          rw [hqa, hqy, hqi]
          rcases RE.npMin_fin_cases qa qy with ⟨he, hle⟩ | ⟨he, _⟩
          · rw [he, RE.leB_fin_iff]
            exact le_trans hle h2
          · rw [he, RE.leB_fin_iff]
            exact h2
      | succ k' =>
        cases i with
        | zero => omega
        | succ i' =>
          simp only [List.getD_cons_succ]
          have h := ih hfin' k' i' (by omega) (by simpa using hi)
          rw [hs] at h
          exact h

theorem suffixMins_attained : ∀ (l : List RE),
    (∀ x ∈ l, ∃ q, x = RE.fin q) →
    ∀ k, k < l.length → ∃ i, k ≤ i ∧ i < l.length ∧
      (suffixMins l).getD k RE.nan = l.getD i RE.nan := by
  intro l
  induction l with
  | nil =>
    intro _ k hk
    simp at hk
  | cons a as_ ih =>
    intro hfin k hk
    obtain ⟨qa, hqa⟩ := hfin a (by simp)
    have hfin' : ∀ x ∈ as_, ∃ q, x = RE.fin q := fun z hz => hfin z (by simp [hz])
    rcases hs : suffixMins as_ with _ | ⟨y, ys⟩
    · have has : as_ = [] := by
        have hl := suffixMins_length as_
        rw [hs] at hl
        exact List.length_eq_zero.mp hl.symm
      subst has
      have hk0 : k = 0 := by simpa using hk
      subst hk0
      refine ⟨0, le_rfl, by simp, ?_⟩
      have hstruct : suffixMins (a :: ([] : List RE)) = [a] := by
        simp only [suffixMins]
      rw [hstruct]
    · have hstruct : suffixMins (a :: as_) = RE.npMin a y :: y :: ys := by
        simp only [suffixMins, hs]
      rw [hstruct]
      obtain ⟨qy, hqy⟩ := allFin_suffixMins as_ hfin' y (by rw [hs]; simp)
      have hlys : (y :: ys).length = as_.length := by
        rw [← hs, suffixMins_length]
      cases k with
      | zero =>
        simp only [List.getD_cons_zero]
        rcases RE.npMin_fin_cases qa qy with ⟨he, _⟩ | ⟨he, _⟩
        · refine ⟨0, le_rfl, by simp, ?_⟩
          simp only [List.getD_cons_zero]
          rw [hqa, hqy, he]
        · have haslen : 0 < as_.length := by
            simp at hlys
            omega
          obtain ⟨i0, _, hi0, heq⟩ := ih hfin' 0 haslen
          refine ⟨i0 + 1, Nat.zero_le _, by simpa using hi0, ?_⟩
          simp only [List.getD_cons_succ]
          rw [← heq, hs]
          simp only [List.getD_cons_zero]
          rw [hqa, hqy, he]
      | succ k' =>
        simp only [List.getD_cons_succ]
        have hk' : k' < as_.length := by simpa using hk
        obtain ⟨i0, hki, hi0, heq⟩ := ih hfin' k' hk'
        refine ⟨i0 + 1, by omega, by simpa using hi0, ?_⟩
        simp only [List.getD_cons_succ]
        rw [← heq, hs]

theorem suffixMins_mono (l : List RE) (hfin : ∀ x ∈ l, ∃ q, x = RE.fin q)
    (k k' : ℕ) (hkk : k ≤ k') (hk' : k' < l.length) :
    RE.leB ((suffixMins l).getD k RE.nan)
      ((suffixMins l).getD k' RE.nan) = true := by
  obtain ⟨i, hk'i, hi, heq⟩ := suffixMins_attained l hfin k' hk'
  rw [heq]
  exact suffixMins_le l hfin k i (le_trans hkk hk'i) hi

theorem fdrSortedPairs_perm (ps : List RE) :
    (fdrSortedPairs ps).Perm ps.enum :=
  List.mergeSort_perm ps.enum fdrPairLe

theorem fdrSorted_length (ps : List RE) :
    (fdrSorted ps).length = ps.length := by
  unfold fdrSorted
  rw [List.length_map, (fdrSortedPairs_perm ps).length_eq, List.enum_length]

theorem fdrSortind_length (ps : List RE) :
    (fdrSortind ps).length = ps.length := by
  unfold fdrSortind
  rw [List.length_map, (fdrSortedPairs_perm ps).length_eq, List.enum_length]

theorem fdrSortind_perm_range (ps : List RE) :
    (fdrSortind ps).Perm (List.range ps.length) := by
  have h := (fdrSortedPairs_perm ps).map Prod.fst
  rwa [List.enum_map_fst] at h

theorem fdrSortedPairs_pairwise (ps : List RE) :
    List.Pairwise (fun a b => fdrPairLe a b = true) (fdrSortedPairs ps) :=
  @List.sorted_mergeSort (ℕ × RE) fdrPairLe
    (fun _ _ _ h1 h2 => fdrPairLe_trans h1 h2) fdrPairLe_total ps.enum

theorem fdrSorted_entry (ps : List RE) (k : ℕ) (hk : k < ps.length) :
    (fdrSortind ps).getD k 0 < ps.length ∧
    ps.getD ((fdrSortind ps).getD k 0) RE.nan = (fdrSorted ps).getD k RE.nan := by
  have hkp : k < (fdrSortedPairs ps).length := by
    rw [(fdrSortedPairs_perm ps).length_eq, List.enum_length]
    exact hk
  have hmem : (fdrSortedPairs ps)[k] ∈ ps.enum :=
    (fdrSortedPairs_perm ps).mem_iff.mp (List.getElem_mem hkp)
  rw [List.mem_enum_iff_getElem?] at hmem
  obtain ⟨hlt, hval⟩ := List.getElem?_eq_some.mp hmem
  have hind : (fdrSortind ps).getD k 0 = (fdrSortedPairs ps)[k].1 := by
    unfold fdrSortind
    rw [List.getD_eq_getElem _ _ (by rw [List.length_map]; exact hkp),
      List.getElem_map]
  have hsor : (fdrSorted ps).getD k RE.nan = (fdrSortedPairs ps)[k].2 := by
    unfold fdrSorted
    rw [List.getD_eq_getElem _ _ (by rw [List.length_map]; exact hkp),
      List.getElem_map]
  refine ⟨by rw [hind]; exact hlt, ?_⟩
  rw [hind, hsor, List.getD_eq_getElem _ _ hlt, hval]

theorem fdrSorted_mem (ps : List RE) (k : ℕ) (hk : k < ps.length) :
    (fdrSorted ps).getD k RE.nan ∈ ps := by
  obtain ⟨hlt, hval⟩ := fdrSorted_entry ps k hk
  rw [← hval, List.getD_eq_getElem _ _ hlt]
  exact List.getElem_mem hlt

theorem fdrSorted_keyMono (ps : List RE) {i j : ℕ} (hij : i ≤ j)
    (hj : j < ps.length) :
    RE.keyLe ((fdrSorted ps).getD i RE.nan)
      ((fdrSorted ps).getD j RE.nan) = true := by
  have hjp : j < (fdrSortedPairs ps).length := by
    rw [(fdrSortedPairs_perm ps).length_eq, List.enum_length]
    exact hj
  have hip : i < (fdrSortedPairs ps).length := lt_of_le_of_lt hij hjp
  have hsi : (fdrSorted ps).getD i RE.nan = (fdrSortedPairs ps)[i].2 := by
    unfold fdrSorted
    rw [List.getD_eq_getElem _ _ (by rw [List.length_map]; exact hip),
      List.getElem_map]
  have hsj : (fdrSorted ps).getD j RE.nan = (fdrSortedPairs ps)[j].2 := by
    unfold fdrSorted
    rw [List.getD_eq_getElem _ _ (by rw [List.length_map]; exact hjp),
      List.getElem_map]
  rw [hsi, hsj]
  rcases eq_or_lt_of_le hij with rfl | hlt
  · cases hx : (fdrSortedPairs ps)[i].2 <;> simp [RE.keyLe]
  · have hp := List.pairwise_iff_getElem.mp (fdrSortedPairs_pairwise ps)
      i j hip hjp hlt
    unfold fdrPairLe at hp
    by_cases hkey : RE.keyLe (fdrSortedPairs ps)[i].2 (fdrSortedPairs ps)[j].2 = true
    · exact hkey
    · rw [if_neg hkey] at hp
      cases hp

theorem maxTrue_none (l : List Bool) (h : maxTrueIdx l = none) :
    ∀ i, i < l.length → l.getD i false = false := by
  unfold maxTrueIdx at h
  rw [List.max?_eq_none_iff] at h
  intro i hi
  by_contra hc
  have ht : l.getD i false = true := by simpa using hc
  have hm : i ∈ (List.range l.length).filter fun k => l.getD k false :=
    List.mem_filter.mpr ⟨List.mem_range.mpr hi, ht⟩
  rw [h] at hm
  cases hm

theorem maxTrue_some (l : List Bool) (K : ℕ) (h : maxTrueIdx l = some K) :
    K < l.length ∧ l.getD K false = true ∧
    ∀ i, l.getD i false = true → i < l.length → i ≤ K := by
  unfold maxTrueIdx at h
  obtain ⟨hKmem, hKmax⟩ := (List.max?_eq_some_iff (a := K)
    (fun a : ℕ => le_refl a) (fun a b => max_choice a b)
    (fun _ _ _ => max_le_iff)).mp h
  rw [List.mem_filter, List.mem_range] at hKmem
  refine ⟨hKmem.1, hKmem.2, fun i hi hilen => ?_⟩
  exact hKmax i (List.mem_filter.mpr ⟨List.mem_range.mpr hilen, hi⟩)

theorem RE.keyLe_fin_iff (a b : ℚ) :
    RE.keyLe (RE.fin a) (RE.fin b) = true ↔ a ≤ b := by
  simp [RE.keyLe]

theorem fdrReject0_length (ps : List RE) (alpha : ℚ) :
    (fdrReject0 ps alpha).length = ps.length := by
  unfold fdrReject0
  rw [List.length_mapIdx, fdrSorted_length]

theorem fdrReject0_getD (ps : List RE) (alpha : ℚ) (k : ℕ)
    (hk : k < ps.length) :
    (fdrReject0 ps alpha).getD k false =
      RE.leB ((fdrSorted ps).getD k RE.nan)
        (RE.fin (((k + 1 : ℕ) : ℚ) / (ps.length : ℚ) * alpha)) := by
  unfold fdrReject0
  rw [List.getD_eq_getElem _ _
      (by rw [List.length_mapIdx, fdrSorted_length]; exact hk),
    List.getElem_mapIdx,
    List.getD_eq_getElem _ _ (by rw [fdrSorted_length]; exact hk)]

theorem fdrCorrRaw_length (ps : List RE) :
    (fdrCorrRaw ps).length = ps.length := by
  unfold fdrCorrRaw
  rw [List.length_mapIdx, fdrSorted_length]

theorem fdrCorrRaw_getD (ps : List RE) (k : ℕ) (hk : k < ps.length) :
    (fdrCorrRaw ps).getD k RE.nan =
      RE.divByQ ((fdrSorted ps).getD k RE.nan)
        (((k + 1 : ℕ) : ℚ) / (ps.length : ℚ)) := by
  unfold fdrCorrRaw
  rw [List.getD_eq_getElem _ _
      (by rw [List.length_mapIdx, fdrSorted_length]; exact hk),
    List.getElem_mapIdx,
    List.getD_eq_getElem _ _ (by rw [fdrSorted_length]; exact hk)]

theorem fdrCorrRaw_allFin (ps : List RE)
    (hfin : ∀ x ∈ ps, ∃ q, x = RE.fin q) :
    ∀ x ∈ fdrCorrRaw ps, ∃ q, x = RE.fin q := by
  intro x hx
  unfold fdrCorrRaw at hx
  obtain ⟨k, hk, hval⟩ := List.getElem_of_mem hx
  rw [List.getElem_mapIdx] at hval
  rw [List.length_mapIdx] at hk
  obtain ⟨q, hq⟩ := hfin _ (fdrSorted_mem ps k
    (by rw [← fdrSorted_length ps]; exact hk))
  rw [List.getD_eq_getElem _ _ hk] at hq
  rw [← hval, hq]
  exact ⟨_, rfl⟩

theorem reject0_iff_raw (ps : List RE) (alpha : ℚ)
    (hfin : ∀ x ∈ ps, ∃ q, x = RE.fin q)
    (k : ℕ) (hk : k < ps.length) :
    ((fdrReject0 ps alpha).getD k false = true ↔
      RE.leB ((fdrCorrRaw ps).getD k RE.nan) (RE.fin alpha) = true) := by
  obtain ⟨q, hq⟩ := hfin _ (fdrSorted_mem ps k hk)
  rw [fdrReject0_getD ps alpha k hk, fdrCorrRaw_getD ps k hk, hq]
  show RE.leB (RE.fin q) _ = true ↔
    RE.leB (RE.fin (q / (((k + 1 : ℕ) : ℚ) / (ps.length : ℚ)))) _ = true
  rw [RE.leB_fin_iff, RE.leB_fin_iff]
  have hm : (0 : ℚ) < (ps.length : ℚ) := by
    exact_mod_cast Nat.lt_of_le_of_lt (Nat.zero_le k) hk
  have he : (0 : ℚ) < ((k + 1 : ℕ) : ℚ) / (ps.length : ℚ) := by
    apply div_pos _ hm
    exact_mod_cast Nat.succ_pos k
  rw [div_le_iff he]
  constructor
  · intro h
    rw [mul_comm]
    exact h
  · intro h
    rw [mul_comm]
    exact h

theorem fdrRejectSorted_iff (ps : List RE) (alpha : ℚ) (k : ℕ)
    (hk : k < ps.length) :
    ((fdrRejectSorted ps alpha).getD k false = true ↔
      ∃ i, k ≤ i ∧ i < ps.length ∧
        (fdrReject0 ps alpha).getD i false = true) := by
  unfold fdrRejectSorted
  rcases hmax : maxTrueIdx (fdrReject0 ps alpha) with _ | K
  · have hnone := maxTrue_none _ hmax
    constructor
    · intro h
      rw [hnone k (by rw [fdrReject0_length]; exact hk)] at h
      cases h
    · rintro ⟨i, _, hi, hri⟩
      rw [hnone i (by rw [fdrReject0_length]; exact hi)] at hri
      cases hri
  · obtain ⟨hKlen, hKtrue, hKmax⟩ := maxTrue_some _ K hmax
    rw [fdrReject0_length] at hKlen
    have hval : ((fdrReject0 ps alpha).mapIdx
          fun i b => if i < K then true else b).getD k false
        = if k < K then true else (fdrReject0 ps alpha).getD k false := by
      rw [List.getD_eq_getElem _ _
          (by rw [List.length_mapIdx, fdrReject0_length]; exact hk),
        List.getElem_mapIdx,
        List.getD_eq_getElem _ _ (by rw [fdrReject0_length]; exact hk)]
    rw [hval]
    constructor
    · intro h
      by_cases hkK : k < K
      · exact ⟨K, by omega, hKlen, hKtrue⟩
      · rw [if_neg hkK] at h
        exact ⟨k, le_rfl, hk, h⟩
    · rintro ⟨i, hki, hilen, hri⟩
      have hiK : i ≤ K := hKmax i hri (by rw [fdrReject0_length]; exact hilen)
      by_cases hkK : k < K
      · rw [if_pos hkK]
      · rw [if_neg hkK]
        have hkeq : k = K := by omega
        rw [hkeq]
        exact hKtrue

theorem scatterBack_getD {α : Type} (m : ℕ) (si : List ℕ) (vals : List α)
    (z : α) (j : ℕ) (hj : j < m) :
    (scatterBack m si vals z).getD j z = vals.getD (si.indexOf j) z := by
  unfold scatterBack
  rw [List.getD_eq_getElem _ _
      (by rw [List.length_map, List.length_range]; exact hj),
    List.getElem_map, List.getElem_range]

theorem sortind_indexOf_lt (ps : List RE) (j : ℕ) (hj : j < ps.length) :
    (fdrSortind ps).indexOf j < ps.length ∧
    (fdrSortind ps).getD ((fdrSortind ps).indexOf j) 0 = j := by
  have hmem : j ∈ fdrSortind ps :=
    (fdrSortind_perm_range ps).mem_iff.mpr (List.mem_range.mpr hj)
  have hlt : (fdrSortind ps).indexOf j < (fdrSortind ps).length :=
    List.indexOf_lt_length.mpr hmem
  refine ⟨by rw [← fdrSortind_length ps]; exact hlt, ?_⟩
  rw [List.getD_eq_getElem _ _ hlt, List.getElem_indexOf]

theorem fdrCorrSorted_length (ps : List RE) :
    (fdrCorrSorted ps).length = ps.length := by
  unfold fdrCorrSorted
  rw [suffixMins_length, fdrCorrRaw_length]

theorem fdrCorrClipped_length (ps : List RE) :
    (fdrCorrClipped ps).length = ps.length := by
  unfold fdrCorrClipped
  rw [List.length_map, fdrCorrSorted_length]

theorem fdrCorrClipped_getD (ps : List RE) (k : ℕ) (hk : k < ps.length) :
    (fdrCorrClipped ps).getD k RE.nan =
      (if RE.ltB (RE.fin 1) ((fdrCorrSorted ps).getD k RE.nan) then RE.fin 1
       else (fdrCorrSorted ps).getD k RE.nan) := by
  unfold fdrCorrClipped
  rw [List.getD_eq_getElem _ _
      (by rw [List.length_map, fdrCorrSorted_length]; exact hk),
    List.getElem_map,
    List.getD_eq_getElem _ _ (by rw [fdrCorrSorted_length]; exact hk)]

theorem fdrCorrSorted_allFin (ps : List RE)
    (hfin : ∀ x ∈ ps, ∃ q, x = RE.fin q) :
    ∀ x ∈ fdrCorrSorted ps, ∃ q, x = RE.fin q :=
  allFin_suffixMins (fdrCorrRaw ps) (fdrCorrRaw_allFin ps hfin)

theorem corrSorted_le_alpha_iff (ps : List RE) (alpha : ℚ)
    (hfin : ∀ x ∈ ps, ∃ q, x = RE.fin q) (k : ℕ) (hk : k < ps.length) :
    (RE.leB ((fdrCorrSorted ps).getD k RE.nan) (RE.fin alpha) = true ↔
      ∃ i, k ≤ i ∧ i < ps.length ∧
        RE.leB ((fdrCorrRaw ps).getD i RE.nan) (RE.fin alpha) = true) := by
  have hrawfin := fdrCorrRaw_allFin ps hfin
  have hklen : k < (fdrCorrRaw ps).length := by
    rw [fdrCorrRaw_length]
    exact hk
  constructor
  · intro h
    obtain ⟨i, hki, hi, heq⟩ :=
      suffixMins_attained (fdrCorrRaw ps) hrawfin k hklen
    rw [fdrCorrRaw_length] at hi
    refine ⟨i, hki, hi, ?_⟩
    rw [← heq]
    exact h
  · rintro ⟨i, hki, hi, hle⟩
    have hsm := suffixMins_le (fdrCorrRaw ps) hrawfin k i hki
      (by rw [fdrCorrRaw_length]; exact hi)
    obtain ⟨qs, hqs⟩ := allFin_suffixMins (fdrCorrRaw ps) hrawfin
      ((suffixMins (fdrCorrRaw ps)).getD k RE.nan)
      (by
        rw [List.getD_eq_getElem _ _ (by rw [suffixMins_length]; exact hklen)]
        exact List.getElem_mem _)
    obtain ⟨qi, hqi⟩ := hrawfin ((fdrCorrRaw ps).getD i RE.nan)
      (by
        rw [List.getD_eq_getElem _ _ (by rw [fdrCorrRaw_length]; exact hi)]
        exact List.getElem_mem _)
    unfold fdrCorrSorted
    rw [hqs, RE.leB_fin_iff]
    rw [hqs, hqi, RE.leB_fin_iff] at hsm
    rw [hqi, RE.leB_fin_iff] at hle
    exact le_trans hsm hle

theorem corrClipped_le_alpha_iff (ps : List RE) (alpha : ℚ)
    (hfin : ∀ x ∈ ps, ∃ q, x = RE.fin q) (h1 : alpha < 1)
    (k : ℕ) (hk : k < ps.length) :
    (RE.leB ((fdrCorrClipped ps).getD k RE.nan) (RE.fin alpha) = true ↔
      RE.leB ((fdrCorrSorted ps).getD k RE.nan) (RE.fin alpha) = true) := by
  rw [fdrCorrClipped_getD ps k hk]
  obtain ⟨q, hq⟩ := fdrCorrSorted_allFin ps hfin
    ((fdrCorrSorted ps).getD k RE.nan)
    (by
      rw [List.getD_eq_getElem _ _ (by rw [fdrCorrSorted_length]; exact hk)]
      exact List.getElem_mem _)
  rw [hq]
  by_cases hgt : (1 : ℚ) < q
  · rw [if_pos (by simp [RE.ltB, hgt])]
    rw [RE.leB_fin_iff, RE.leB_fin_iff]
    constructor
    · intro hcon
      linarith
    · intro hcon
      linarith
  · rw [if_neg (by simp [RE.ltB, hgt])]

theorem rejectSorted_iff_corr (ps : List RE) (alpha : ℚ)
    (hfin : ∀ x ∈ ps, ∃ q, x = RE.fin q) (h1 : alpha < 1)
    (k : ℕ) (hk : k < ps.length) :
    ((fdrRejectSorted ps alpha).getD k false = true ↔
      RE.leB ((fdrCorrClipped ps).getD k RE.nan) (RE.fin alpha) = true) := by
  rw [fdrRejectSorted_iff ps alpha k hk,
    corrClipped_le_alpha_iff ps alpha hfin h1 k hk,
    corrSorted_le_alpha_iff ps alpha hfin k hk]
  constructor
  · rintro ⟨i, hki, hi, hr⟩
    exact ⟨i, hki, hi, (reject0_iff_raw ps alpha hfin i hi).mp hr⟩
  · rintro ⟨i, hki, hi, hr⟩
    exact ⟨i, hki, hi, (reject0_iff_raw ps alpha hfin i hi).mpr hr⟩

theorem fdr_mask_iff (ps : List RE) (alpha : ℚ)
    (hfin : ∀ x ∈ ps, ∃ q, x = RE.fin q) (h0 : 0 < alpha)
    (j : ℕ) (hj : j < ps.length) :
    ((fdrcorrection ps alpha).1.getD j false = true ↔
      ∃ i, i < ps.length ∧
        RE.leB ((fdrSorted ps).getD i RE.nan)
          (RE.fin (((i + 1 : ℕ) : ℚ) / (ps.length : ℚ) * alpha)) = true ∧
        RE.leB (ps.getD j RE.nan) ((fdrSorted ps).getD i RE.nan) = true) := by
  obtain ⟨hklt, hkj⟩ := sortind_indexOf_lt ps j hj
  have hpj : ps.getD j RE.nan =
      (fdrSorted ps).getD ((fdrSortind ps).indexOf j) RE.nan := by
    have h := (fdrSorted_entry ps _ hklt).2
    rw [hkj] at h
    exact h
  simp only [fdrcorrection]
  rw [scatterBack_getD _ _ _ _ j hj]
  rw [fdrRejectSorted_iff ps alpha _ hklt]
  constructor
  · rintro ⟨i, hki, hi, hr⟩
    refine ⟨i, hi, ?_, ?_⟩
    · rw [← fdrReject0_getD ps alpha i hi]
      exact hr
    · rw [hpj]
      have hkey := fdrSorted_keyMono ps hki hi
      obtain ⟨qk, hqk⟩ := hfin _ (fdrSorted_mem ps _ hklt)
      obtain ⟨qi, hqi⟩ := hfin _ (fdrSorted_mem ps i hi)
      rw [hqk, hqi] at hkey ⊢
      rw [RE.leB_fin_iff]
      rwa [RE.keyLe_fin_iff] at hkey
  · rintro ⟨i, hi, hthr, hpi⟩
    by_cases hik : (fdrSortind ps).indexOf j ≤ i
    · refine ⟨i, hik, hi, ?_⟩
      rw [fdrReject0_getD ps alpha i hi]
      exact hthr
    · push_neg at hik
      refine ⟨(fdrSortind ps).indexOf j, le_rfl, hklt, ?_⟩
      rw [fdrReject0_getD ps alpha _ hklt]
      obtain ⟨qk, hqk⟩ := hfin _ (fdrSorted_mem ps _ hklt)
      obtain ⟨qi, hqi⟩ := hfin _ (fdrSorted_mem ps i hi)
      have hik' : qi ≤ qk := by
        have hkey := fdrSorted_keyMono ps (le_of_lt hik) hklt
        rw [hqk, hqi] at hkey
        rwa [RE.keyLe_fin_iff] at hkey
      have hki' : qk ≤ qi := by
        have h := hpi
        rw [hpj, hqk, hqi] at h
        rwa [RE.leB_fin_iff] at h
      have hthr' : qi ≤ ((i + 1 : ℕ) : ℚ) / (ps.length : ℚ) * alpha := by
        rw [hqi, RE.leB_fin_iff] at hthr
        exact hthr
      rw [hqk, RE.leB_fin_iff]
      have hm : (0 : ℚ) < (ps.length : ℚ) := by
        exact_mod_cast Nat.lt_of_le_of_lt (Nat.zero_le j) hj
      have hcast : ((i + 1 : ℕ) : ℚ) ≤ (((fdrSortind ps).indexOf j + 1 : ℕ) : ℚ) := by
        exact_mod_cast Nat.succ_le_succ (le_of_lt hik)
      have hstep : ((i + 1 : ℕ) : ℚ) / (ps.length : ℚ) * alpha ≤
          (((fdrSortind ps).indexOf j + 1 : ℕ) : ℚ) / (ps.length : ℚ) * alpha := by
        apply mul_le_mul_of_nonneg_right _ (le_of_lt h0)
        rw [div_eq_mul_inv, div_eq_mul_inv]
        exact mul_le_mul_of_nonneg_right hcast (inv_nonneg.mpr (le_of_lt hm))
      calc qk = qi := le_antisymm hki' hik'
        _ ≤ _ := hthr'
        _ ≤ _ := hstep

theorem fdrCorrClipped_mono (ps : List RE)
    (hfin : ∀ x ∈ ps, ∃ q, x = RE.fin q) (k k' : ℕ) (hkk : k ≤ k')
    (hk' : k' < ps.length) :
    RE.leB ((fdrCorrClipped ps).getD k RE.nan)
      ((fdrCorrClipped ps).getD k' RE.nan) = true := by
  have hk : k < ps.length := lt_of_le_of_lt hkk hk'
  rw [fdrCorrClipped_getD ps k hk, fdrCorrClipped_getD ps k' hk']
  have hmemk : (fdrCorrSorted ps).getD k RE.nan ∈ fdrCorrSorted ps := by
    rw [List.getD_eq_getElem _ _ (by rw [fdrCorrSorted_length]; exact hk)]
    exact List.getElem_mem _
  have hmemk' : (fdrCorrSorted ps).getD k' RE.nan ∈ fdrCorrSorted ps := by
    rw [List.getD_eq_getElem _ _ (by rw [fdrCorrSorted_length]; exact hk')]
    exact List.getElem_mem _
  obtain ⟨qk, hqk⟩ := fdrCorrSorted_allFin ps hfin _ hmemk
  obtain ⟨qk', hqk'⟩ := fdrCorrSorted_allFin ps hfin _ hmemk'
  have hmono := suffixMins_mono (fdrCorrRaw ps) (fdrCorrRaw_allFin ps hfin) k k' hkk
    (by rw [fdrCorrRaw_length]; exact hk')
  unfold fdrCorrSorted at hqk hqk'
  rw [hqk, hqk'] at hmono
  rw [RE.leB_fin_iff] at hmono
  unfold fdrCorrSorted
  rw [hqk, hqk']
  by_cases h1 : RE.ltB (RE.fin 1) (RE.fin qk) = true <;>
    by_cases h2 : RE.ltB (RE.fin 1) (RE.fin qk') = true
  · rw [if_pos h1, if_pos h2, RE.leB_fin_iff]
  · simp only [RE.ltB, decide_eq_true_eq] at h1 h2
    exact absurd (lt_of_lt_of_le h1 hmono) h2
  · simp only [RE.ltB, decide_eq_true_eq] at h1
    rw [if_neg (by simpa [RE.ltB] using h1), if_pos h2, RE.leB_fin_iff]
    exact le_of_not_lt h1
  · rw [if_neg h2, if_neg (by assumption), RE.leB_fin_iff]
    exact hmono

theorem fdr_mask_iff_corr (ps : List RE) (alpha : ℚ)
    (hfin : ∀ x ∈ ps, ∃ q, x = RE.fin q) (h1 : alpha < 1)
    (j : ℕ) (hj : j < ps.length) :
    ((fdrcorrection ps alpha).1.getD j false = true ↔
      RE.leB ((fdrcorrection ps alpha).2.getD j RE.nan) (RE.fin alpha) = true) := by
  obtain ⟨hklt, _⟩ := sortind_indexOf_lt ps j hj
  simp only [fdrcorrection]
  rw [scatterBack_getD _ _ _ _ j hj, scatterBack_getD _ _ _ _ j hj]
  exact rejectSorted_iff_corr ps alpha hfin h1 _ hklt

theorem fdr_mask_all_one (ps : List RE) (alpha : ℚ)
    (hone : ∀ x ∈ ps, x = RE.fin 1) (h0 : 0 < alpha) (h1 : alpha < 1)
    (j : ℕ) (hj : j < ps.length) :
    (fdrcorrection ps alpha).1.getD j false = false := by
  by_contra hc
  have ht : (fdrcorrection ps alpha).1.getD j false = true := by
    cases hb : (fdrcorrection ps alpha).1.getD j false
    · exact absurd hb hc
    · rfl
  have hfin : ∀ x ∈ ps, ∃ q, x = RE.fin q := fun x hx => ⟨1, hone x hx⟩
  obtain ⟨i, hi, hthr, _⟩ := (fdr_mask_iff ps alpha hfin h0 j hj).mp ht
  have hs1 : (fdrSorted ps).getD i RE.nan = RE.fin 1 :=
    hone _ (fdrSorted_mem ps i hi)
  rw [hs1, RE.leB_fin_iff] at hthr
  have hm : (0 : ℚ) < (ps.length : ℚ) := by
    exact_mod_cast Nat.lt_of_le_of_lt (Nat.zero_le j) hj
  have hfle : ((i + 1 : ℕ) : ℚ) / (ps.length : ℚ) ≤ 1 := by
    rw [div_le_one hm]
    exact_mod_cast Nat.succ_le_of_lt hi
  have hlt : ((i + 1 : ℕ) : ℚ) / (ps.length : ℚ) * alpha < 1 :=
    calc ((i + 1 : ℕ) : ℚ) / (ps.length : ℚ) * alpha
        ≤ 1 * alpha := mul_le_mul_of_nonneg_right hfle (le_of_lt h0)
      _ = alpha := one_mul _
      _ < 1 := h1
  linarith

theorem fdr_mask_all_small (ps : List RE) (alpha : ℚ)
    (hsmall : ∀ x ∈ ps, ∃ q, x = RE.fin q ∧ q ≤ alpha / (ps.length : ℚ))
    (h0 : 0 < alpha) (j : ℕ) (hj : j < ps.length) :
    (fdrcorrection ps alpha).1.getD j false = true := by
  have hfin : ∀ x ∈ ps, ∃ q, x = RE.fin q :=
    fun x hx => (hsmall x hx).imp (fun q h => h.1)
  apply (fdr_mask_iff ps alpha hfin h0 j hj).mpr
  have hmpos : 0 < ps.length := Nat.lt_of_le_of_lt (Nat.zero_le j) hj
  have hm : (0 : ℚ) < (ps.length : ℚ) := by exact_mod_cast hmpos
  refine ⟨ps.length - 1, by omega, ?_, ?_⟩
  · obtain ⟨q, hq, hqle⟩ := hsmall _ (fdrSorted_mem ps (ps.length - 1) (by omega))
    rw [hq, RE.leB_fin_iff]
    have hcast : ((ps.length - 1 + 1 : ℕ) : ℚ) = (ps.length : ℚ) := by
      congr 1
      omega
    rw [hcast, div_self (ne_of_gt hm), one_mul]
    have hmle : (1 : ℚ) ≤ (ps.length : ℚ) := by exact_mod_cast hmpos
    calc q ≤ alpha / (ps.length : ℚ) := hqle
      _ ≤ alpha := div_le_self (le_of_lt h0) hmle
  · obtain ⟨hklt, hkj⟩ := sortind_indexOf_lt ps j hj
    have hpj : ps.getD j RE.nan =
        (fdrSorted ps).getD ((fdrSortind ps).indexOf j) RE.nan := by
      have h := (fdrSorted_entry ps _ hklt).2
      rw [hkj] at h
      exact h
    rw [hpj]
    have hkey := fdrSorted_keyMono ps
      (show (fdrSortind ps).indexOf j ≤ ps.length - 1 by omega) (by omega)
    obtain ⟨qa, hqa⟩ := hfin _ (fdrSorted_mem ps _ hklt)
    obtain ⟨qb, hqb⟩ := hfin _ (fdrSorted_mem ps (ps.length - 1) (by omega))
    rw [hqa, hqb] at hkey ⊢
    rw [RE.leB_fin_iff]
    rwa [RE.keyLe_fin_iff] at hkey

theorem flatten3_length {d0 d1 d2 : ℕ} {α : Type} (V : Vol3 d0 d1 d2 α) :
    (flatten3 V).length = d0 * (d1 * d2) := by
  unfold flatten3
  exact List.length_ofFn _

theorem unflatten3_flatten3 {d0 d1 d2 : ℕ} {α : Type} (z : α)
    (V : Vol3 d0 d1 d2 α) :
    (unflatten3 z (flatten3 V) : Vol3 d0 d1 d2 α) = V := by
  funext v
  obtain ⟨⟨i, hi⟩, ⟨j, hjj⟩, ⟨k, hkk⟩⟩ := v
  show (flatten3 V).getD ((i * d1 + j) * d2 + k) z = V (⟨i, hi⟩, ⟨j, hjj⟩, ⟨k, hkk⟩)
  have hd2 : 0 < d2 := Nat.lt_of_le_of_lt (Nat.zero_le k) hkk
  have hd1 : 0 < d1 := Nat.lt_of_le_of_lt (Nat.zero_le j) hjj
  have henc : (i * d1 + j) * d2 + k < d0 * (d1 * d2) := by
    have h1 : i * d1 + j < d0 * d1 := by
      calc i * d1 + j < i * d1 + d1 := by omega
        _ = (i + 1) * d1 := by ring
        _ ≤ d0 * d1 := Nat.mul_le_mul_right _ (by omega)
    calc (i * d1 + j) * d2 + k < (i * d1 + j) * d2 + d2 := by omega
      _ = (i * d1 + j + 1) * d2 := by ring
      _ ≤ (d0 * d1) * d2 := Nat.mul_le_mul_right _ (by omega)
      _ = d0 * (d1 * d2) := by ring
  have e3 : ((i * d1 + j) * d2 + k) % d2 = k := by
    rw [Nat.mul_comm (i * d1 + j) d2, Nat.mul_add_mod]
    exact Nat.mod_eq_of_lt hkk
  have ediv : ((i * d1 + j) * d2 + k) / d2 = i * d1 + j := by
    rw [Nat.add_comm ((i * d1 + j) * d2) k, Nat.add_mul_div_right _ _ hd2,
      Nat.div_eq_of_lt hkk, Nat.zero_add]
  have e2 : ((i * d1 + j) * d2 + k) / d2 % d1 = j := by
    rw [ediv, Nat.add_comm (i * d1) j, Nat.add_mul_mod_self_right]
    exact Nat.mod_eq_of_lt hjj
  have e1 : ((i * d1 + j) * d2 + k) / (d1 * d2) = i := by
    have hre : (i * d1 + j) * d2 + k = (j * d2 + k) + i * (d1 * d2) := by ring
    have hsm : j * d2 + k < d1 * d2 := by
      calc j * d2 + k < j * d2 + d2 := by omega
        _ = (j + 1) * d2 := by ring
        _ ≤ d1 * d2 := Nat.mul_le_mul_right _ (by omega)
    rw [hre, Nat.add_mul_div_right _ _ (Nat.mul_pos hd1 hd2),
      Nat.div_eq_of_lt hsm, Nat.zero_add]
  rw [List.getD_eq_getElem _ _ (by rw [flatten3_length]; exact henc)]
  simp only [flatten3]
  rw [List.getElem_ofFn]
  congr 1
  refine Prod.ext (Fin.ext ?_) (Prod.ext (Fin.ext ?_) (Fin.ext ?_))
  · exact e1
  · exact e2
  · exact e3

theorem flatten3_mem {d0 d1 d2 : ℕ} {α : Type} (V : Vol3 d0 d1 d2 α) :
    ∀ x ∈ flatten3 V, ∃ v, x = V v := by
  intro x hx
  unfold flatten3 at hx
  rw [List.mem_ofFn] at hx
  obtain ⟨y, hy⟩ := hx
  exact ⟨_, hy.symm⟩

theorem encode3_lt {d0 d1 d2 : ℕ} (i j k : ℕ) (hi : i < d0) (hjj : j < d1)
    (hkk : k < d2) : (i * d1 + j) * d2 + k < d0 * (d1 * d2) := by
  have h1 : i * d1 + j < d0 * d1 := by
    calc i * d1 + j < i * d1 + d1 := by omega
      _ = (i + 1) * d1 := by ring
      _ ≤ d0 * d1 := Nat.mul_le_mul_right _ (by omega)
  calc (i * d1 + j) * d2 + k < (i * d1 + j) * d2 + d2 := by omega
    _ = (i * d1 + j + 1) * d2 := by ring
    _ ≤ (d0 * d1) * d2 := Nat.mul_le_mul_right _ (by omega)
    _ = d0 * (d1 * d2) := by ring

/-- C3: the multiple-comparisons correction is the Benjamini–Hochberg step-up
procedure applied jointly to the flattened p-value volume (`fdrcorrection` is
the shallow embedding of statsmodels' `fdrcorrection` as called on
`p_values.flatten()`): (a) a voxel's mask entry is true iff some sorted rank i
satisfies p_(i) ≤ ((i+1)/m)·α and dominates that voxel's p-value — i.e. the
voxel sits at or below the largest qualifying rank; (b) the corrected p-values
are monotonically non-decreasing in sorted rank; (c) the returned mask marks
exactly the voxels whose returned corrected p-value is ≤ α; (d) the reshape
back to 3D inverts the C-order flattening, preserving voxel-to-index
correspondence; (e) an all-1 p-value volume yields an all-false 3D mask and a
volume with every p ≤ α/m yields an all-true 3D mask. -/
theorem fdr_bh_correct {d0 d1 d2 : ℕ} (P : Vol3 d0 d1 d2 ℚ) (alpha : ℚ)
    (ps : List RE) (hps : ps = flatten3 (fun v => RE.fin (P v)))
    (h0 : 0 < alpha) (h1 : alpha < 1) :
    (∀ j, j < ps.length →
      ((fdrcorrection ps alpha).1.getD j false = true ↔
        ∃ i, i < ps.length ∧
          RE.leB ((fdrSorted ps).getD i RE.nan)
            (RE.fin (((i + 1 : ℕ) : ℚ) / (ps.length : ℚ) * alpha)) = true ∧
          RE.leB (ps.getD j RE.nan) ((fdrSorted ps).getD i RE.nan) = true)) ∧
    (∀ k k', k ≤ k' → k' < ps.length →
      RE.leB ((fdrCorrClipped ps).getD k RE.nan)
        ((fdrCorrClipped ps).getD k' RE.nan) = true) ∧
    (∀ j, j < ps.length →
      ((fdrcorrection ps alpha).1.getD j false = true ↔
        RE.leB ((fdrcorrection ps alpha).2.getD j RE.nan) (RE.fin alpha) = true)) ∧
    ((unflatten3 (0 : ℚ) (flatten3 P) : Vol3 d0 d1 d2 ℚ) = P) ∧
    ((∀ v, P v = 1) → ∀ v : Fin d0 × Fin d1 × Fin d2,
      (unflatten3 false (fdrcorrection ps alpha).1 : Vol3 d0 d1 d2 Bool) v
        = false) ∧
    ((∀ v, P v ≤ alpha / ((d0 * (d1 * d2) : ℕ) : ℚ)) →
      ∀ v : Fin d0 × Fin d1 × Fin d2,
      (unflatten3 false (fdrcorrection ps alpha).1 : Vol3 d0 d1 d2 Bool) v
        = true) := by
  subst hps
  have hfin : ∀ x ∈ flatten3 (fun v => RE.fin (P v)), ∃ q, x = RE.fin q := by
    intro x hx
    obtain ⟨v, hv⟩ := flatten3_mem _ x hx
    exact ⟨P v, hv⟩
  refine ⟨?_, ?_, ?_, ?_, ?_, ?_⟩
  · intro j hj
    exact fdr_mask_iff _ alpha hfin h0 j hj
  · intro k k' hkk hk'
    exact fdrCorrClipped_mono _ hfin k k' hkk hk'
  · intro j hj
    exact fdr_mask_iff_corr _ alpha hfin h1 j hj
  · exact unflatten3_flatten3 0 P
  · intro hone v
    obtain ⟨⟨i, hi⟩, ⟨j, hjj⟩, ⟨k, hkk⟩⟩ := v
    show (fdrcorrection (flatten3 (fun v => RE.fin (P v))) alpha).1.getD
      ((i * d1 + j) * d2 + k) false = false
    apply fdr_mask_all_one _ alpha _ h0 h1
    · rw [flatten3_length]
      exact encode3_lt i j k hi hjj hkk
    · intro x hx
      obtain ⟨w, hw⟩ := flatten3_mem _ x hx
      rw [hw, hone w]
  · intro hsm v
    obtain ⟨⟨i, hi⟩, ⟨j, hjj⟩, ⟨k, hkk⟩⟩ := v
    show (fdrcorrection (flatten3 (fun v => RE.fin (P v))) alpha).1.getD
      ((i * d1 + j) * d2 + k) false = true
    apply fdr_mask_all_small _ alpha _ h0
    · rw [flatten3_length]
      exact encode3_lt i j k hi hjj hkk
    · intro x hx
      obtain ⟨w, hw⟩ := flatten3_mem _ x hx
      refine ⟨P w, hw, ?_⟩
      rw [flatten3_length]
      exact hsm w

theorem fdr_bh_correct_witness :
    (0 : ℚ) < 1/20 ∧ (1/20 : ℚ) < 1 ∧
    (∀ v : Fin 1 × Fin 1 × Fin 1,
      (unflatten3 false
        (fdrcorrection
          (flatten3 (fun v : Fin 1 × Fin 1 × Fin 1 =>
            RE.fin ((fun _ : Fin 1 × Fin 1 × Fin 1 => (1/100 : ℚ)) v)))
          (1/20)).1 : Vol3 1 1 1 Bool) v = true) := by
  refine ⟨by norm_num, by norm_num, ?_⟩
  have h := @fdr_bh_correct 1 1 1 (fun _ => (1/100 : ℚ)) (1/20)
    (flatten3 (fun v : Fin 1 × Fin 1 × Fin 1 =>
      RE.fin ((fun _ : Fin 1 × Fin 1 × Fin 1 => (1/100 : ℚ)) v)))
    rfl (by norm_num) (by norm_num)
  apply h.2.2.2.2.2
  intro v
  norm_num
